import Mathlib

/-!
Verification development for the process-launching subsystem of a
desktop game-library manager (`GameLauncher`).

JavaScript strings are modelled as `List Char` (`JStr`).  The Node
`path` module is modelled with its POSIX semantics (`path.normalize`,
`path.join`, `path.basename`, `path.extname`), which is the platform
the launcher targets.  The filesystem and OS are modelled as a record
of oracle functions (`FSModel`); fallible operations return `Except`.
Side effects (chmod calls, process spawns) are recorded in explicit
event lists.
-/

/-- JavaScript string, modelled as a list of characters. -/
abbrev JStr := List Char

/-- Conversion from a Lean string literal to the model type. -/
def js (s : String) : JStr := s.toList

/-- JavaScript `String.prototype.startsWith`: `p` is a prefix of `s`. -/
def strStartsWith : JStr → JStr → Bool
  | _, [] => true
  | [], _ :: _ => false
  | c :: s, q :: p => c = q && strStartsWith s p

/-- JavaScript `String.prototype.endsWith`: `p` is a suffix of `s`. -/
def strEndsWith (s p : JStr) : Bool := strStartsWith s.reverse p.reverse

/-- JavaScript `String.prototype.includes`: `sub` occurs inside `s`. -/
def strIncludes (s sub : JStr) : Bool :=
  match s with
  | [] => strStartsWith [] sub
  | c :: rest => strStartsWith (c :: rest) sub || strIncludes rest sub

/-- JavaScript `String.prototype.toLowerCase`, character-wise. -/
def strToLower (s : JStr) : JStr := s.map Char.toLower

/-- Boolean prefix test on segment lists. -/
def listPrefixB : List JStr → List JStr → Bool
  | [], _ => true
  | _ :: _, [] => false
  | a :: as, b :: bs => if a = b then listPrefixB as bs else false

/-- Split a path string at `'/'` characters, keeping empty segments,
as `"/a//b".split('/') = ["", "a", "", "b"]` would. -/
def splitOnSlash : JStr → List JStr
  | [] => [[]]
  | c :: rest =>
    if c = '/' then [] :: splitOnSlash rest
    else
      match splitOnSlash rest with
      | [] => [[c]]
      | seg :: more => (c :: seg) :: more

/-- POSIX `path.isAbsolute`: the string starts with a slash. -/
def isAbsolutePath (s : JStr) : Bool :=
  match s with
  | [] => false
  | c :: _ => c = '/'

/-- One step of Node's `normalizeString` segment resolution: skip empty
and `"."` segments; on `".."` pop the last segment unless it is itself
`".."`, else (for relative paths) keep the `".."`. -/
def normStep (allowAbove : Bool) (st : List JStr) (seg : JStr) : List JStr :=
  if seg = [] ∨ seg = ['.'] then st
  else if seg = ['.', '.'] then
    match st.getLast? with
    | none => if allowAbove then st ++ [seg] else st
    | some l => if l = ['.', '.'] then (if allowAbove then st ++ [seg] else st) else st.dropLast
  else st ++ [seg]

/-- Resolved segment stack of a path string. -/
def pathStack (allowAbove : Bool) (s : JStr) : List JStr :=
  (splitOnSlash s).foldl (normStep allowAbove) []

/-- Resolved segments of a path, using the rule Node applies to it
(`..` may climb above the start only for relative paths). -/
def nsegsOf (s : JStr) : List JStr := pathStack (!(isAbsolutePath s)) s

/-- Join segments back into a path body with `'/'` separators. -/
def renderSegs : List JStr → JStr
  | [] => []
  | [x] => x
  | x :: y :: rest => x ++ '/' :: renderSegs (y :: rest)

/-- Node POSIX `path.normalize`. -/
def normalizePath (s : JStr) : JStr :=
  if s = [] then ['.']
  else
    let abs := isAbsolutePath s
    let trail := s.getLast? = some '/'
    let body := renderSegs (pathStack (!abs) s)
    if body = [] then
      if abs then ['/'] else if trail then ['.', '/'] else ['.']
    else
      let body2 := if trail then body ++ ['/'] else body
      if abs then '/' :: body2 else body2

/-- Node POSIX `path.join` for two arguments: empty parts are dropped,
the rest are joined with `'/'` and the result is normalized. -/
def joinPath (a b : JStr) : JStr :=
  if a = [] ∧ b = [] then ['.']
  else if a = [] then normalizePath b
  else if b = [] then normalizePath a
  else normalizePath (a ++ '/' :: b)

/-- Node POSIX `path.basename`: the last portion of the path, with
trailing slashes stripped first. -/
def basenameStr (s : JStr) : JStr :=
  let stripped := s.reverse.dropWhile (fun c => c = '/')
  (stripped.takeWhile (fun c => c ≠ '/')).reverse

/-- Node POSIX `path.extname`: the extension of the last portion, from
its final dot; no dot, a leading dot, or the special name `".."` give
the empty extension. -/
def extnameStr (s : JStr) : JStr :=
  let base := (s.reverse.takeWhile (fun c => c ≠ '/')).reverse
  if base = ['.', '.'] then []
  else
    match base.reverse.span (fun c => c ≠ '.') with
    | (_, []) => []
    | (extRev, _ :: before) => if before = [] then [] else '.' :: extRev.reverse

example : normalizePath (js "/games/foo/../bar") = js "/games/bar" := by decide
example : normalizePath (js "a/..") = js "." := by decide
example : normalizePath (js "/..") = js "/" := by decide
example : joinPath (js "/g") (js "run.sh") = js "/g/run.sh" := by decide
example : joinPath (js "/games/foo") (js "..") = js "/games" := by decide
example : basenameStr (js "../../etc/passwd") = js "passwd" := by decide
example : basenameStr (js "..") = js ".." := by decide
example : extnameStr (js "/g/start.sh") = js ".sh" := by decide
example : extnameStr (js "archive") = js "" := by decide
example : extnameStr (js ".bashrc") = js "" := by decide
example : strIncludes (js "foo start bar") (js "start") = true := by decide

/-- Subset of the `LibraryGame` record consumed by the launcher. -/
structure LibraryGame where
  id : Nat
  name : JStr
  installed : Bool
  installPath : Option JStr
  executable : Option JStr

/-- JavaScript truthiness of an optional string field: `undefined` and
the empty string are falsy. -/
def jsFalsyOpt : Option JStr → Bool
  | none => true
  | some s => s = []

/-- Filesystem and OS oracle.  `readdir` and `readFile` may fail
(modelling a rejected promise); `pathExists` and the `stat` queries
are total.  `readdirEnts` models `readdir` with `withFileTypes`,
pairing each entry name with its `isDirectory` bit.  `spawnOk` tells
whether the OS can actually create the process for a path: the
`spawn` call itself always returns a handle regardless, and a `false`
value means the asynchronous `'error'` event will fire afterwards.
`killThrows` tells whether `process.kill()` throws for the process
tracked under a game id. -/
structure FSModel where
  pathExists : JStr → Bool
  isFile : JStr → Bool
  isDirectory : JStr → Bool
  readdir : JStr → Except Unit (List JStr)
  readFile : JStr → Except Unit JStr
  readdirEnts : JStr → Except Unit (List (JStr × Bool))
  spawnOk : JStr → Bool
  killThrows : Nat → Bool

/-- Failure reasons of `validateExecutablePath`, in check order. -/
inductive ValidationError where
  | escapesInstall
  | dangerous
  | notExists
  | notFile
deriving DecidableEq, Repr

/-- Characters rejected by the command-injection check
`/[;&|` ++ "`" ++ `$(){}[\]<>]/`; the backtick and braces are written
via code points. -/
def dangerousChars : List Char :=
  [';', '&', '|', Char.ofNat 96, '$', '(', ')', Char.ofNat 123, Char.ofNat 125,
   '[', ']', '<', '>']

/-- Test for a dangerous character anywhere in the raw path. -/
def hasDangerousChar (s : JStr) : Bool := s.any (fun c => dangerousChars.contains c)

/-- `GameLauncher.validateExecutablePath` (part_000 lines 60-85):
normalize both paths, require the executable to extend the install
path as a string prefix, reject dangerous characters in the raw path,
then require the normalized path to exist and be a regular file. -/
def validateExecutablePath (fs : FSModel) (execPath installPath : JStr) :
    Except ValidationError Unit :=
  let normalizedExecPath := normalizePath execPath
  let normalizedInstallPath := normalizePath installPath
  if ¬ strStartsWith normalizedExecPath normalizedInstallPath then .error .escapesInstall
  else if hasDangerousChar execPath then .error .dangerous
  else if ¬ fs.pathExists normalizedExecPath then .error .notExists
  else if ¬ fs.isFile normalizedExecPath then .error .notFile
  else .ok ()

/-- Name slug used by the templated heuristic entries:
`name.toLowerCase().replace(/[^a-z0-9]/g, '')`. -/
def slug (name : JStr) : JStr :=
  (strToLower name).filter (fun c => ('a' ≤ c ∧ c ≤ 'z') ∨ ('0' ≤ c ∧ c ≤ '9'))

/-- Well-known Unix executable names probed by `findLinuxExecutables`
(part_000 lines 181-191), with the templated entries evaluated at
`path.basename(gamePath)`. -/
def commonLinuxNames (gamePath : JStr) : List JStr :=
  let s := slug (basenameStr gamePath)
  [js "game.sh", js "start.sh", js "run.sh", js "launcher.sh",
   s ++ js ".sh", s, js "renpy.sh", js "lib/linux-x86_64/renpy", js "lib/linux-i686/renpy"]

/-- Well-known Windows executable names probed by
`findWindowsExecutables` (part_000 lines 136-145). -/
def commonWindowsNames (gamePath : JStr) : List JStr :=
  let s := slug (basenameStr gamePath)
  [js "game.exe", js "start.exe", js "launcher.exe", js "run.bat",
   s ++ js ".exe", js "renpy.exe", js "lib/windows-i686/renpy.exe",
   js "lib/windows-x86_64/renpy.exe"]

/-- Well-known-name probe loop shared by both platform searches: keep
`join(gamePath, name)` when it exists and is not a directory. -/
def commonHits (fs : FSModel) (gamePath : JStr) (names : List JStr) : List JStr :=
  names.foldl
    (fun acc name =>
      let fullPath := joinPath gamePath name
      if fs.pathExists fullPath ∧ ¬ fs.isDirectory fullPath then acc ++ [fullPath] else acc)
    []

/-- Unix name patterns `[/\.sh$/, /^[^.]+$/, /linux/i, /\.py$/]`:
a file matches when it ends in `.sh`, is nonempty with no dot,
contains "linux" case-insensitively, or ends in `.py`. -/
def linuxPatternMatch (file : JStr) : Bool :=
  strEndsWith file (js ".sh") ||
  (file ≠ [] && ¬ file.contains '.') ||
  strIncludes (strToLower file) (js "linux") ||
  strEndsWith file (js ".py")

/-- Content sniff of part_000 lines 214-218: keep a file whose content
contains the shebang marker, "python" or "renpy". -/
def sniffOk (content : JStr) : Bool :=
  strIncludes content (js "#!/") || strIncludes content (js "python") ||
  strIncludes content (js "renpy")

/-- `fs.readFile(p, 'utf8').catch(() => '')`: a failed read is
replaced by the empty string. -/
def readFileOr (fs : FSModel) (p : JStr) : JStr :=
  match fs.readFile p with
  | .ok c => c
  | .error _ => []

/-- Top-level Unix scan loop of `findLinuxExecutables` (part_000 lines
206-225): a non-directory entry that matches a name pattern is kept
exactly when its (error-defaulted) content passes the sniff. -/
def scanHits (fs : FSModel) (gamePath : JStr) (files : List JStr) : List JStr :=
  files.foldl
    (fun acc file =>
      let fullPath := joinPath gamePath file
      if fs.isDirectory fullPath then acc
      else if linuxPatternMatch file ∧ sniffOk (readFileOr fs fullPath) then acc ++ [fullPath]
      else acc)
    []

/-- Windows extension filter over the directory listing (part_000
lines 162-172). -/
def winScanHits (fs : FSModel) (gamePath : JStr) (files : List JStr) : List JStr :=
  files.foldl
    (fun acc file =>
      if (strToLower (extnameStr file) = js ".exe" ∨ strToLower (extnameStr file) = js ".bat"
            ∨ strToLower (extnameStr file) = js ".cmd") then
        let fullPath := joinPath gamePath file
        if ¬ fs.isDirectory fullPath then acc ++ [fullPath] else acc
      else acc)
    []

/-- Priority of a candidate under the ladder of
`prioritizeExecutables` (part_000 lines 231-239), encoded as the
7-bit number whose comparison agrees with the lexicographic
first-difference comparator of the source: contains "start" >
contains "launcher" > contains "game" > contains "run" > extension
`.exe` > extension `.sh` > no dot anywhere in the candidate string.
Every predicate is applied to the full candidate string, exactly as
the source applies it. -/
def priorityRank (file : JStr) : Nat :=
  (if strIncludes file (js "start") then 64 else 0) +
  (if strIncludes file (js "launcher") then 32 else 0) +
  (if strIncludes file (js "game") then 16 else 0) +
  (if strIncludes file (js "run") then 8 else 0) +
  (if extnameStr file = js ".exe" then 4 else 0) +
  (if extnameStr file = js ".sh" then 2 else 0) +
  (if ¬ file.contains '.' then 1 else 0)

/-- Stable insertion of a candidate behind all candidates of the same
or higher priority. -/
def insertByRank (x : JStr) : List JStr → List JStr
  | [] => [x]
  | y :: ys => if priorityRank y < priorityRank x then x :: y :: ys else y :: insertByRank x ys

/-- `GameLauncher.prioritizeExecutables` (part_000 lines 230-253): the
JavaScript `Array.prototype.sort` with the first-difference priority
comparator is a stable sort by descending `priorityRank`; it is
modelled by stable insertion sort, and certified below to be sorted,
stable and a permutation. -/
def prioritizeExecutables (executables : List JStr) : List JStr :=
  executables.foldl (fun acc x => insertByRank x acc) []

/-- Failure modes of `findExecutable`. -/
inductive FindError where
  | noInstallPath
  | installMissing
  | fsError
  | noExecutable
deriving DecidableEq, Repr

/-- `GameLauncher.findLinuxExecutables` (part_000 lines 177-228). -/
def findLinuxExecutables (fs : FSModel) (gamePath : JStr) (files : List JStr) : List JStr :=
  prioritizeExecutables
    (commonHits fs gamePath (commonLinuxNames gamePath) ++ scanHits fs gamePath files)

/-- `GameLauncher.findWindowsExecutables` (part_000 lines 131-175). -/
def findWindowsExecutables (fs : FSModel) (gamePath : JStr) (files : List JStr) : List JStr :=
  prioritizeExecutables
    (commonHits fs gamePath (commonWindowsNames gamePath) ++ winScanHits fs gamePath files)

/-- `GameLauncher.findExecutable` (part_000 lines 87-129).  Returns the
resolved path together with the list of paths chmodded to `0o755`.
The executable hint is reduced to its basename and, when the joined
path exists, returned before the heuristic search ever runs; otherwise
the platform search runs over the directory listing and the head of
the prioritized list is returned (chmodded on Unix). -/
def findExecutable (fs : FSModel) (isWindows : Bool) (game : LibraryGame) :
    Except FindError (JStr × List JStr) :=
  match game.installPath with
  | none => .error .noInstallPath
  | some ip =>
    if ip = [] then .error .noInstallPath
    else
      let normalizedInstallPath := normalizePath ip
      if ¬ fs.pathExists normalizedInstallPath then .error .installMissing
      else
        let hint : Option JStr :=
          match game.executable with
          | none => none
          | some e =>
            if e = [] then none
            else
              let execPath := joinPath normalizedInstallPath (basenameStr e)
              if fs.pathExists execPath then some execPath else none
        match hint with
        | some execPath => .ok (execPath, [execPath])
        | none =>
          match fs.readdir normalizedInstallPath with
          | .error _ => .error .fsError
          | .ok files =>
            let executables :=
              if isWindows then findWindowsExecutables fs normalizedInstallPath files
              else findLinuxExecutables fs normalizedInstallPath files
            match executables with
            | [] => .error .noExecutable
            | exe :: _ => if isWindows then .ok (exe, []) else .ok (exe, [exe])

/-- Failure modes of `launchGame`.  The `spawnFailed` kind is the
error the specification ascribes to an OS-level process-creation
failure; it is included so that statements can mention it, but no code
path produces it: `child_process.spawn` reports creation failures
through the asynchronous `'error'` event after the call has already
returned, never as a synchronous throw reaching the `catch` block. -/
inductive LaunchError where
  | notInstalled
  | alreadyRunning
  | find (e : FindError)
  | security (e : ValidationError)
  | spawnFailed
deriving DecidableEq, Repr

/-- Decidable equality for `Except`, needed to evaluate launch
outcomes in concrete witnesses. -/
instance exceptDecEq {ε α : Type} [DecidableEq ε] [DecidableEq α] :
    DecidableEq (Except ε α) := fun x y =>
  match x, y with
  | .ok a, .ok b =>
    if h : a = b then .isTrue (by rw [h])
    else .isFalse (fun hh => h (Except.ok.inj hh))
  | .error a, .error b =>
    if h : a = b then .isTrue (by rw [h])
    else .isFalse (fun hh => h (Except.error.inj hh))
  | .ok _, .error _ => .isFalse (fun hh => Except.noConfusion hh)
  | .error _, .ok _ => .isFalse (fun hh => Except.noConfusion hh)

/-- `Map.set` on the tracked-process table, viewed on its key set. -/
def insertId (running : List Nat) (g : Nat) : List Nat :=
  if running.contains g then running else running ++ [g]

/-- Observable outcome of one `launchGame` call: the returned or
thrown result, the tracked-process table, and the spawn calls issued
(paths handed to `spawn`). -/
structure LaunchOut where
  outcome : Except LaunchError Unit
  running : List Nat
  spawns : List JStr
deriving DecidableEq, Repr

/-- Synchronous head of `launchGame` (part_000 lines 13-19), run
before the first `await`: the installed/installPath truthiness check
and the already-running check against the tracked table. -/
def checkPhase (running : List Nat) (game : LibraryGame) : Option LaunchError :=
  if ¬ game.installed ∨ jsFalsyOpt game.installPath then some .notInstalled
  else if running.contains game.id then some .alreadyRunning
  else none

/-- Resolution, validation, spawn and registration of `launchGame`
(part_000 lines 21-57).  The tracked table is read again only through
`Map.set`; there is no second already-running check here.  The `spawn`
call (line 30) returns a `ChildProcess` handle without waiting for the
OS: an OS-level failure to create the process is delivered later
through the asynchronous `'error'` event, so the call itself does not
throw, the entry is always registered at line 43 once validation has
passed, and the call resolves successfully.  The `'error'` and
`'exit'` listeners are modelled separately by `errorEvent` and
`exitEvent`. -/
def commitPhase (fs : FSModel) (isWindows : Bool) (game : LibraryGame)
    (running : List Nat) (spawns : List JStr) :
    Except LaunchError Unit × List Nat × List JStr :=
  match findExecutable fs isWindows game with
  | .error e => (.error (.find e), running, spawns)
  | .ok (executable, _) =>
    match game.installPath with
    | none => (.error (.find .noInstallPath), running, spawns)
    | some ip =>
      match validateExecutablePath fs executable ip with
      | .error v => (.error (.security v), running, spawns)
      | .ok _ => (.ok (), insertId running game.id, spawns ++ [executable])

/-- Action of the `'error'` listener (part_000 lines 50-53), fired
asynchronously after `launchGame` has already returned when the OS
could not create the process (or the child later errors): it logs and
removes the tracked entry; `Map.delete` on an absent key is a no-op,
so the removal is idempotent. -/
def errorEvent (running : List Nat) (gameId : Nat) : List Nat := running.erase gameId

/-- Action of the `'exit'` listener (part_000 lines 45-48), fired
asynchronously when the child terminates: it removes the tracked
entry, idempotently. -/
def exitEvent (running : List Nat) (gameId : Nat) : List Nat := running.erase gameId

/-- `GameLauncher.launchGame` (part_000 lines 12-58), as the
sequential composition of its two synchronous segments. -/
def launchGame (fs : FSModel) (isWindows : Bool) (running : List Nat)
    (game : LibraryGame) : LaunchOut :=
  match checkPhase running game with
  | some e => ⟨.error e, running, []⟩
  | none =>
    let (r, rn, sp) := commitPhase fs isWindows game running []
    ⟨r, rn, sp⟩

/-- `GameLauncher.stopGame` (part_000 lines 259-271): when tracked,
`process.kill()` runs first; if it throws, the `catch` block logs and
rethrows, so the delete below it never executes.  Returns the thrown
or returned result and the resulting tracked table. -/
def stopGame (fs : FSModel) (running : List Nat) (gameId : Nat) :
    Except Unit Unit × List Nat :=
  if running.contains gameId then
    if fs.killThrows gameId then (.error (), running)
    else (.ok (), running.erase gameId)
  else (.ok (), running)

/-- Signature test of `detectInstalledGames` (part_000 lines 323-329). -/
def hasExecSig (isWindows : Bool) (file : JStr) : Bool :=
  if isWindows then strEndsWith file (js ".exe") || strEndsWith file (js ".bat")
  else strEndsWith file (js ".sh") || strIncludes file (js "renpy") || file = js "game.py"

/-- Loop body of `detectInstalledGames` (part_000 lines 317-335).  All
iterations run inside the single try block of the function: a failing
per-subdirectory `readdir` jumps to the catch, which returns the
accumulator as collected so far. -/
def detectLoop (fs : FSModel) (isWindows : Bool) (nsp : JStr) :
    List (JStr × Bool) → List JStr → List JStr
  | [], acc => acc
  | (name, isDir) :: rest, acc =>
    if isDir then
      let gamePath := joinPath nsp name
      match fs.readdir gamePath with
      | .error _ => acc
      | .ok files =>
        detectLoop fs isWindows nsp rest
          (if files.any (hasExecSig isWindows) then acc ++ [gamePath] else acc)
    else detectLoop fs isWindows nsp rest acc

/-- `GameLauncher.detectInstalledGames` (part_000 lines 305-341). -/
def detectInstalledGames (fs : FSModel) (isWindows : Bool) (searchPath : JStr) : List JStr :=
  let nsp := normalizePath searchPath
  if ¬ fs.pathExists nsp then []
  else
    match fs.readdirEnts nsp with
    | .error _ => []
    | .ok entries => detectLoop fs isWindows nsp entries []

/-- Specification-side notion of path containment: `p` is a (reflexive)
descendant of `root` when both have the same absoluteness and the
resolved segments of `root` are a prefix of those of `p`.  The string
"/games/foobar/run.sh" is not a descendant of "/games/foo" under this
notion, while every path inside "/games/foo" is. -/
def isDescendantOf (p root : JStr) : Bool :=
  (isAbsolutePath p == isAbsolutePath root) && listPrefixB (nsegsOf root) (nsegsOf p)

/-- Progress of one in-flight `launchGame` call: before its
synchronous head, suspended at the `await` inside `findExecutable`,
or finished with a result. -/
inductive TaskStatus where
  | ready
  | resolving
  | done (r : Except LaunchError Unit)
deriving DecidableEq, Repr

/-- Shared state of two concurrent `launchGame` calls for the same
game under Node's single-threaded cooperative scheduler: the tracked
table, the spawn log, and each call's progress. -/
structure RaceState where
  running : List Nat
  spawns : List JStr
  st1 : TaskStatus
  st2 : TaskStatus
deriving DecidableEq, Repr

/-- Run the next synchronous segment of one `launchGame` call: the
check phase (lines 13-19) from `ready`, or the commit phase (lines
21-57) from `resolving`; a finished call does not move. -/
def taskStep (fs : FSModel) (isWindows : Bool) (game : LibraryGame)
    (status : TaskStatus) (running : List Nat) (spawns : List JStr) :
    TaskStatus × List Nat × List JStr :=
  match status with
  | .ready =>
    (match checkPhase running game with
     | some e => (.done (.error e), running, spawns)
     | none => (.resolving, running, spawns))
  | .resolving =>
    let (r, rn, sp) := commitPhase fs isWindows game running spawns
    (.done r, rn, sp)
  | .done r => (.done r, running, spawns)

/-- Scheduler step: advance the first (`false`) or second (`true`)
call by one synchronous segment. -/
def raceStep (fs : FSModel) (isWindows : Bool) (game : LibraryGame)
    (s : RaceState) (pick : Bool) : RaceState :=
  if pick then
    let (st, rn, sp) := taskStep fs isWindows game s.st2 s.running s.spawns
    ⟨rn, sp, s.st1, st⟩
  else
    let (st, rn, sp) := taskStep fs isWindows game s.st1 s.running s.spawns
    ⟨rn, sp, st, s.st2⟩

/-- Run a schedule of segment picks from a race state. -/
def raceRun (fs : FSModel) (isWindows : Bool) (game : LibraryGame)
    (sched : List Bool) (s : RaceState) : RaceState :=
  sched.foldl (raceStep fs isWindows game) s

/-- Race state before either call has run. -/
def raceInit (running : List Nat) : RaceState := ⟨running, [], .ready, .ready⟩

/-- Concrete game record used by the witnesses: installed at `/g`
with executable hint `run.sh`. -/
def gameA : LibraryGame :=
  ⟨1, js "MyGame", true, some (js "/g"), some (js "run.sh")⟩

/-- Concrete filesystem for the witnesses: `/g` is a directory
holding the regular file `/g/run.sh`; spawning always succeeds. -/
def fsA : FSModel where
  pathExists := fun p => p = js "/g" || p = js "/g/run.sh"
  isFile := fun p => p = js "/g/run.sh"
  isDirectory := fun p => p = js "/g"
  readdir := fun _ => .ok [js "run.sh"]
  readFile := fun _ => .ok (js "#!/bin/sh")
  readdirEnts := fun _ => .error ()
  spawnOk := fun _ => true
  killThrows := fun _ => false

example :
    launchGame fsA false [] gameA = ⟨.ok (), [1], [js "/g/run.sh"]⟩ := by decide

example :
    (raceRun fsA false gameA [false, true, false, true] (raceInit [])).spawns.length = 2 := by
  decide

example : isDescendantOf (js "/games/foobar/run.sh") (js "/games/foo") = false := by decide
example : isDescendantOf (js "/games/foo/run.sh") (js "/games/foo") = true := by decide

/-! ## Certification of the priority sort -/

/-- Descending order on candidate priorities. -/
def rankGE (a b : JStr) : Prop := priorityRank b ≤ priorityRank a

theorem insertByRank_perm (x : JStr) (l : List JStr) :
    (insertByRank x l).Perm (x :: l) := by
  induction l with
  | nil => simp [insertByRank]
  | cons y ys ih =>
    by_cases h : priorityRank y < priorityRank x
    · simp [insertByRank, h]
    · simp only [insertByRank, if_neg h]
      exact ((ih.cons y).trans (List.Perm.swap x y ys)).symm.symm

theorem insertByRank_sorted (x : JStr) (l : List JStr)
    (h : l.Pairwise rankGE) : (insertByRank x l).Pairwise rankGE := by
  induction l with
  | nil => simp [insertByRank, rankGE]
  | cons y ys ih =>
    rcases List.pairwise_cons.mp h with ⟨hy, hys⟩
    by_cases hlt : priorityRank y < priorityRank x
    · rw [show insertByRank x (y :: ys) = x :: y :: ys from by simp [insertByRank, hlt]]
      refine List.pairwise_cons.mpr ⟨?_, h⟩
      intro z hz
      rcases List.mem_cons.mp hz with hz | hz
      · exact hz ▸ le_of_lt hlt
      · exact le_trans (hy z hz) (le_of_lt hlt)
    · rw [show insertByRank x (y :: ys) = y :: insertByRank x ys from by
        simp [insertByRank, hlt]]
      refine List.pairwise_cons.mpr ⟨?_, ih hys⟩
      intro z hz
      have hz' := (insertByRank_perm x ys).mem_iff.mp hz
      rcases List.mem_cons.mp hz' with hz' | hz'
      · exact hz' ▸ le_of_not_lt hlt
      · exact hy z hz'

theorem insertByRank_filter (x : JStr) (l : List JStr) (k : Nat)
    (h : l.Pairwise rankGE) :
    (insertByRank x l).filter (fun f => priorityRank f = k) =
      if priorityRank x = k then l.filter (fun f => priorityRank f = k) ++ [x]
      else l.filter (fun f => priorityRank f = k) := by
  induction l with
  | nil => by_cases hk : priorityRank x = k <;> simp [insertByRank, hk]
  | cons y ys ih =>
    rcases List.pairwise_cons.mp h with ⟨hy, hys⟩
    by_cases hlt : priorityRank y < priorityRank x
    · have hfil : (y :: ys).filter (fun f => priorityRank f = k) = [] ∨
          ¬ priorityRank x = k := by
        by_cases hk : priorityRank x = k
        · left
          refine List.filter_eq_nil_iff.mpr ?_
          intro z hz
          rcases List.mem_cons.mp hz with hz | hz
          · subst hz; simp only [decide_eq_true_eq]
            omega
          · have := hy z hz
            simp only [decide_eq_true_eq]
            unfold rankGE at this
            omega
        · right; exact hk
      by_cases hk : priorityRank x = k
      · rcases hfil with hfil | hfil
        · simp only [insertByRank, if_pos hlt, if_pos hk]
          rw [List.filter_cons_of_pos (by simpa using hk), hfil]
          rfl
        · exact absurd hk hfil
      · simp only [insertByRank, if_pos hlt, if_neg hk]
        rw [List.filter_cons_of_neg (by simpa using hk)]
    · simp only [insertByRank, if_neg hlt]
      by_cases hyk : priorityRank y = k
      · rw [List.filter_cons_of_pos (by simpa using hyk),
          List.filter_cons_of_pos (by simpa using hyk), ih hys]
        by_cases hk : priorityRank x = k <;> simp [hk]
      · rw [List.filter_cons_of_neg (by simpa using hyk),
          List.filter_cons_of_neg (by simpa using hyk), ih hys]

theorem prioritize_fold_sorted (xs acc : List JStr) (h : acc.Pairwise rankGE) :
    (xs.foldl (fun a x => insertByRank x a) acc).Pairwise rankGE := by
  induction xs generalizing acc with
  | nil => simpa using h
  | cons x xs ih => exact ih (insertByRank x acc) (insertByRank_sorted x acc h)

theorem prioritize_fold_perm (xs acc : List JStr) :
    (xs.foldl (fun a x => insertByRank x a) acc).Perm (acc ++ xs) := by
  induction xs generalizing acc with
  | nil => simp
  | cons x xs ih =>
    refine (ih (insertByRank x acc)).trans ?_
    have h1 : (insertByRank x acc ++ xs).Perm ((x :: acc) ++ xs) :=
      (insertByRank_perm x acc).append_right xs
    refine h1.trans ?_
    exact List.perm_middle.symm

theorem prioritize_fold_filter (xs acc : List JStr) (k : Nat) (h : acc.Pairwise rankGE) :
    (xs.foldl (fun a x => insertByRank x a) acc).filter (fun f => priorityRank f = k) =
      acc.filter (fun f => priorityRank f = k) ++ xs.filter (fun f => priorityRank f = k) := by
  induction xs generalizing acc with
  | nil => simp
  | cons x xs ih =>
    rw [List.foldl_cons, ih (insertByRank x acc) (insertByRank_sorted x acc h),
      insertByRank_filter x acc k h]
    by_cases hk : priorityRank x = k
    · rw [if_pos hk, List.filter_cons_of_pos (by simpa using hk), List.append_assoc]
      rfl
    · rw [if_neg hk, List.filter_cons_of_neg (by simpa using hk)]

/-- `prioritizeExecutables` permutes its input. -/
theorem prioritize_perm (xs : List JStr) : (prioritizeExecutables xs).Perm xs := by
  simpa using prioritize_fold_perm xs []

/-- `prioritizeExecutables` sorts by descending priority. -/
theorem prioritize_sorted (xs : List JStr) : (prioritizeExecutables xs).Pairwise rankGE :=
  prioritize_fold_sorted xs [] (by simp)

/-- `prioritizeExecutables` is stable: within each priority class the
input order is preserved. -/
theorem prioritize_stable (xs : List JStr) (k : Nat) :
    (prioritizeExecutables xs).filter (fun f => priorityRank f = k) =
      xs.filter (fun f => priorityRank f = k) := by
  simpa using prioritize_fold_filter xs [] k (by simp)

/-! ## Characterizations of the discovery loops -/

theorem foldlKeep (p : JStr → Prop) [DecidablePred p] (g : JStr → JStr) :
    ∀ (l acc : List JStr),
      (l.foldl (fun a x => if p x then a ++ [g x] else a) acc) =
        acc ++ (l.filter (fun x => decide (p x))).map g := by
  intro l
  induction l with
  | nil => intro acc; simp
  | cons x xs ih =>
    intro acc
    by_cases h : p x
    · rw [List.foldl_cons, if_pos h, ih, List.filter_cons_of_pos (by simpa using h)]
      simp
    · rw [List.foldl_cons, if_neg h, ih, List.filter_cons_of_neg (by simpa using h)]

theorem foldlSkipKeep (q r : JStr → Prop) [DecidablePred q] [DecidablePred r]
    (g : JStr → JStr) :
    ∀ (l acc : List JStr),
      (l.foldl (fun a x => if q x then a else if r x then a ++ [g x] else a) acc) =
        acc ++ (l.filter (fun x => decide (¬ q x ∧ r x))).map g := by
  intro l
  induction l with
  | nil => intro acc; simp
  | cons x xs ih =>
    intro acc
    by_cases hq : q x
    · rw [List.foldl_cons, if_pos hq, ih,
        List.filter_cons_of_neg (by simp [hq])]
    · by_cases hr : r x
      · rw [List.foldl_cons, if_neg hq, if_pos hr, ih,
          List.filter_cons_of_pos (by simp [hq, hr])]
        simp
      · rw [List.foldl_cons, if_neg hq, if_neg hr, ih,
          List.filter_cons_of_neg (by simp [hq, hr])]

theorem foldlKeepSkip (q r : JStr → Prop) [DecidablePred q] [DecidablePred r]
    (g : JStr → JStr) :
    ∀ (l acc : List JStr),
      (l.foldl (fun a x => if q x then (if r x then a ++ [g x] else a) else a) acc) =
        acc ++ (l.filter (fun x => decide (q x ∧ r x))).map g := by
  intro l
  induction l with
  | nil => intro acc; simp
  | cons x xs ih =>
    intro acc
    by_cases hq : q x
    · by_cases hr : r x
      · rw [List.foldl_cons, if_pos hq, if_pos hr, ih,
          List.filter_cons_of_pos (by simp [hq, hr])]
        simp
      · rw [List.foldl_cons, if_pos hq, if_neg hr, ih,
          List.filter_cons_of_neg (by simp [hq, hr])]
    · rw [List.foldl_cons, if_neg hq, ih,
        List.filter_cons_of_neg (by simp [hq])]

/-- The well-known-name probe keeps exactly the joined names that
exist and are not directories, in list order. -/
theorem commonHits_eq (fs : FSModel) (gp : JStr) (names : List JStr) :
    commonHits fs gp names =
      (names.filter (fun n =>
        decide (fs.pathExists (joinPath gp n) ∧ ¬ fs.isDirectory (joinPath gp n)))).map
        (joinPath gp) := by
  simpa [commonHits] using
    foldlKeep (fun n => fs.pathExists (joinPath gp n) ∧ ¬ fs.isDirectory (joinPath gp n))
      (joinPath gp) names []

/-- The Unix scan loop keeps exactly the non-directory entries that
match a name pattern and whose (error-defaulted) content passes the
sniff, in listing order. -/
theorem scanHits_eq (fs : FSModel) (gp : JStr) (files : List JStr) :
    scanHits fs gp files =
      (files.filter (fun f =>
        decide (¬ fs.isDirectory (joinPath gp f) ∧
          (linuxPatternMatch f ∧ sniffOk (readFileOr fs (joinPath gp f)))))).map
        (joinPath gp) := by
  simpa [scanHits] using
    foldlSkipKeep (fun f => fs.isDirectory (joinPath gp f))
      (fun f => linuxPatternMatch f ∧ sniffOk (readFileOr fs (joinPath gp f)))
      (joinPath gp) files []

/-- The Windows scan loop keeps exactly the entries with a recognised
executable extension joining to a non-directory. -/
theorem winScanHits_eq (fs : FSModel) (gp : JStr) (files : List JStr) :
    winScanHits fs gp files =
      (files.filter (fun f =>
        decide ((strToLower (extnameStr f) = js ".exe" ∨ strToLower (extnameStr f) = js ".bat"
            ∨ strToLower (extnameStr f) = js ".cmd") ∧
          ¬ fs.isDirectory (joinPath gp f)))).map (joinPath gp) := by
  simpa [winScanHits] using
    foldlKeepSkip (fun f => strToLower (extnameStr f) = js ".exe"
        ∨ strToLower (extnameStr f) = js ".bat" ∨ strToLower (extnameStr f) = js ".cmd")
      (fun f => ¬ fs.isDirectory (joinPath gp f))
      (joinPath gp) files []

/-! ## Behaviour of the detection scan -/

/-- Result of probing one directory entry during detection. -/
def detectEntry (fs : FSModel) (isWindows : Bool) (nsp : JStr) (pr : JStr × Bool) :
    Option JStr :=
  if pr.2 then
    match fs.readdir (joinPath nsp pr.1) with
    | .error _ => none
    | .ok files => if files.any (hasExecSig isWindows) then some (joinPath nsp pr.1) else none
  else none

/-- When every subdirectory listing succeeds, the loop visits every
entry and returns the accumulator extended by all signature hits. -/
theorem detectLoop_all_ok (fs : FSModel) (w : Bool) (nsp : JStr) :
    ∀ (entries : List (JStr × Bool)) (acc : List JStr),
      (∀ pr ∈ entries, pr.2 = true →
        ∃ files, fs.readdir (joinPath nsp pr.1) = .ok files) →
      detectLoop fs w nsp entries acc = acc ++ entries.filterMap (detectEntry fs w nsp) := by
  intro entries
  induction entries with
  | nil => intro acc _; simp [detectLoop]
  | cons pr rest ih =>
    intro acc hok
    obtain ⟨name, isDir⟩ := pr
    by_cases hd : isDir = true
    · obtain ⟨files, hf⟩ := hok (name, isDir) (List.mem_cons_self _ _) hd
      subst hd
      rw [show detectLoop fs w nsp ((name, true) :: rest) acc =
          detectLoop fs w nsp rest
            (if files.any (hasExecSig w) then acc ++ [joinPath nsp name] else acc) from by
        simp [detectLoop, hf]]
      rw [ih _ (fun q hq => hok q (List.mem_cons_of_mem _ hq))]
      by_cases hs : files.any (hasExecSig w) = true
      · simp [List.filterMap_cons, detectEntry, hf, hs]
      · simp [List.filterMap_cons, detectEntry, hf, hs]
    · have hd' : isDir = false := by
        cases isDir
        · rfl
        · exact absurd rfl hd
      subst hd'
      rw [show detectLoop fs w nsp ((name, false) :: rest) acc =
          detectLoop fs w nsp rest acc from by simp [detectLoop]]
      rw [ih _ (fun q hq => hok q (List.mem_cons_of_mem _ hq))]
      simp [List.filterMap_cons, detectEntry]

/-- A failing subdirectory listing aborts the loop: every entry after
the failing one is ignored. -/
theorem detectLoop_abort (fs : FSModel) (w : Bool) (nsp name : JStr)
    (hfail : fs.readdir (joinPath nsp name) = .error ()) :
    ∀ (pre post : List (JStr × Bool)) (acc : List JStr),
      detectLoop fs w nsp (pre ++ (name, true) :: post) acc =
        detectLoop fs w nsp (pre ++ [(name, true)]) acc := by
  intro pre
  induction pre with
  | nil =>
    intro post acc
    simp [detectLoop, hfail]
  | cons pr rest ih =>
    intro post acc
    obtain ⟨n, d⟩ := pr
    by_cases hd : d = true
    · subst hd
      cases hrd : fs.readdir (joinPath nsp n) with
      | error e =>
        cases e
        simp [detectLoop, hrd]
      | ok files =>
        simp only [List.cons_append, detectLoop, hrd]
        exact ih post _
    · have hd' : d = false := by
        cases d
        · rfl
        · exact absurd rfl hd
      subst hd'
      simp only [List.cons_append, detectLoop]
      exact ih post acc

/-! ## Path machinery -/

/-- Segments that are kept verbatim by normalization: nonempty and
none of the special names. -/
def plainSeg (seg : JStr) : Prop := seg ≠ [] ∧ seg ≠ ['.'] ∧ seg ≠ ['.', '.']

/-- Segment well-formedness inside a resolved stack: nonempty and
slash-free. -/
def segOk (x : JStr) : Prop := x ≠ [] ∧ '/' ∉ x

/-- Relative names whose every slash-separated segment is plain. -/
def goodRel (r : JStr) : Prop := ∀ seg ∈ splitOnSlash r, plainSeg seg

/-- Directory listings contain plain entry names: nonempty, free of
separators, and neither `"."` nor `".."`. -/
def readdirWF (fs : FSModel) : Prop :=
  ∀ d files, fs.readdir d = .ok files →
    ∀ f ∈ files, f ≠ [] ∧ '/' ∉ f ∧ f ≠ ['.'] ∧ f ≠ ['.', '.']

theorem splitOnSlash_ne_nil (s : JStr) : splitOnSlash s ≠ [] := by
  cases s with
  | nil => simp [splitOnSlash]
  | cons c rest =>
    by_cases h : c = '/'
    · simp [splitOnSlash, h]
    · simp only [splitOnSlash, if_neg h]
      cases hs : splitOnSlash rest <;> simp

theorem splitOnSlash_append (a b : JStr) :
    splitOnSlash (a ++ '/' :: b) = splitOnSlash a ++ splitOnSlash b := by
  induction a with
  | nil => simp [splitOnSlash]
  | cons c rest ih =>
    show splitOnSlash (c :: (rest ++ '/' :: b)) = splitOnSlash (c :: rest) ++ splitOnSlash b
    by_cases h : c = '/'
    · simp only [splitOnSlash, if_pos h, ih]
      rfl
    · simp only [splitOnSlash, if_neg h]
      rw [ih]
      cases hs : splitOnSlash rest with
      | nil => exact absurd hs (splitOnSlash_ne_nil rest)
      | cons seg more => simp

theorem splitOnSlash_no_slash (s : JStr) (h : '/' ∉ s) : splitOnSlash s = [s] := by
  induction s with
  | nil => simp [splitOnSlash]
  | cons c rest ih =>
    have hc : c ≠ '/' := fun hh => h (hh ▸ List.mem_cons_self c rest)
    have hr : '/' ∉ rest := fun hh => h (List.mem_cons_of_mem c hh)
    simp only [splitOnSlash, if_neg hc, ih hr]

theorem splitOnSlash_mem_no_slash (s : JStr) :
    ∀ seg ∈ splitOnSlash s, '/' ∉ seg := by
  induction s with
  | nil => intro seg hs; simp [splitOnSlash] at hs; simp [hs]
  | cons c rest ih =>
    intro seg hs
    by_cases h : c = '/'
    · simp only [splitOnSlash, if_pos h, List.mem_cons] at hs
      rcases hs with hs | hs
      · simp [hs]
      · exact ih seg hs
    · simp only [splitOnSlash, if_neg h] at hs
      cases hr : splitOnSlash rest with
      | nil => exact absurd hr (splitOnSlash_ne_nil rest)
      | cons seg0 more =>
        rw [hr] at hs
        rcases List.mem_cons.mp hs with hs | hs
        · subst hs
          intro hmem
          rcases List.mem_cons.mp hmem with hmem | hmem
          · exact h hmem.symm
          · exact ih seg0 (hr ▸ List.mem_cons_self seg0 more) hmem
        · exact ih seg (hr ▸ List.mem_cons_of_mem seg0 hs)

theorem normStep_plain (flag : Bool) (st : List JStr) (seg : JStr) (h : plainSeg seg) :
    normStep flag st seg = st ++ [seg] := by
  obtain ⟨h1, h2, h3⟩ := h
  simp [normStep, h1, h2, h3]

theorem foldl_normStep_plain (flag : Bool) :
    ∀ (segs : List JStr) (st : List JStr), (∀ seg ∈ segs, plainSeg seg) →
      segs.foldl (normStep flag) st = st ++ segs := by
  intro segs
  induction segs with
  | nil => intro st _; simp
  | cons seg rest ih =>
    intro st h
    rw [List.foldl_cons, normStep_plain flag st seg (h seg (List.mem_cons_self _ _)),
      ih _ (fun q hq => h q (List.mem_cons_of_mem _ hq)), List.append_assoc]
    rfl

theorem normStep_mem (flag : Bool) (st : List JStr) (seg : JStr) (hs : '/' ∉ seg) :
    ∀ x ∈ normStep flag st seg, x ∈ st ∨ (x = seg ∧ segOk x) := by
  intro x hx
  by_cases h1 : seg = [] ∨ seg = ['.']
  · rw [normStep, if_pos h1] at hx
    exact Or.inl hx
  · by_cases h2 : seg = ['.', '.']
    · rw [normStep, if_neg h1, if_pos h2] at hx
      cases hl : st.getLast? with
      | none =>
        rw [hl] at hx
        by_cases hf : flag = true
        · rw [hf, if_pos rfl] at hx
          rcases List.mem_append.mp hx with hx | hx
          · exact Or.inl hx
          · refine Or.inr ⟨List.mem_singleton.mp hx, ?_⟩
            rw [List.mem_singleton.mp hx, h2]
            exact ⟨by simp, by simp⟩
        · rw [Bool.not_eq_true] at hf
          rw [hf] at hx
          exact Or.inl hx
      | some l =>
        rw [hl] at hx
        have hx' : x ∈ (if l = ['.', '.'] then (if flag = true then st ++ [seg] else st)
            else st.dropLast) := hx
        by_cases he : l = ['.', '.']
        · rw [if_pos he] at hx'
          by_cases hf : flag = true
          · rw [hf, if_pos rfl] at hx'
            rcases List.mem_append.mp hx' with hx' | hx'
            · exact Or.inl hx'
            · refine Or.inr ⟨List.mem_singleton.mp hx', ?_⟩
              rw [List.mem_singleton.mp hx', h2]
              exact ⟨by simp, by simp⟩
          · rw [Bool.not_eq_true] at hf
            rw [hf] at hx'
            simp only [Bool.false_eq_true, if_false] at hx'
            exact Or.inl hx'
        · rw [if_neg he] at hx'
          exact Or.inl (List.dropLast_subset st hx')
    · rw [normStep, if_neg h1, if_neg h2] at hx
      rcases List.mem_append.mp hx with hx | hx
      · exact Or.inl hx
      · refine Or.inr ⟨List.mem_singleton.mp hx, ?_⟩
        constructor
        · rw [List.mem_singleton.mp hx]
          intro he
          exact h1 (Or.inl he)
        · rw [List.mem_singleton.mp hx]
          exact hs

theorem foldl_normStep_segOk (flag : Bool) :
    ∀ (segs : List JStr) (st : List JStr), (∀ x ∈ st, segOk x) →
      (∀ seg ∈ segs, '/' ∉ seg) →
      ∀ x ∈ segs.foldl (normStep flag) st, segOk x := by
  intro segs
  induction segs with
  | nil => intro st hst _ x hx; exact hst x hx
  | cons seg rest ih =>
    intro st hst hsl x hx
    rw [List.foldl_cons] at hx
    refine ih (normStep flag st seg) ?_ (fun q hq => hsl q (List.mem_cons_of_mem _ hq)) x hx
    intro y hy
    rcases normStep_mem flag st seg (hsl seg (List.mem_cons_self _ _)) y hy with hy | hy
    · exact hst y hy
    · exact hy.2

theorem normStep_false_mem (st : List JStr) (seg : JStr) (hs : '/' ∉ seg) :
    ∀ x ∈ normStep false st seg, x ∈ st ∨ (x = seg ∧ segOk x ∧ plainSeg x) := by
  intro x hx
  by_cases h1 : seg = [] ∨ seg = ['.']
  · rw [normStep, if_pos h1] at hx
    exact Or.inl hx
  · by_cases h2 : seg = ['.', '.']
    · rw [normStep, if_neg h1, if_pos h2] at hx
      cases hl : st.getLast? with
      | none =>
        rw [hl] at hx
        simp only [Bool.false_eq_true, if_false] at hx
        exact Or.inl hx
      | some l =>
        rw [hl] at hx
        have hx' : x ∈ (if l = ['.', '.'] then (if false = true then st ++ [seg] else st)
            else st.dropLast) := hx
        by_cases he : l = ['.', '.']
        · rw [if_pos he] at hx'
          simp only [Bool.false_eq_true, if_false] at hx'
          exact Or.inl hx'
        · rw [if_neg he] at hx'
          exact Or.inl (List.dropLast_subset st hx')
    · rw [normStep, if_neg h1, if_neg h2] at hx
      rcases List.mem_append.mp hx with hx | hx
      · exact Or.inl hx
      · have hxe := List.mem_singleton.mp hx
        subst hxe
        refine Or.inr ⟨rfl, ⟨fun he => h1 (Or.inl he), hs⟩,
          fun he => h1 (Or.inl he), fun he => h1 (Or.inr he), h2⟩

theorem foldl_normStep_false_clean :
    ∀ (segs : List JStr) (st : List JStr), (∀ x ∈ st, segOk x ∧ plainSeg x) →
      (∀ seg ∈ segs, '/' ∉ seg) →
      ∀ x ∈ segs.foldl (normStep false) st, segOk x ∧ plainSeg x := by
  intro segs
  induction segs with
  | nil => intro st hst _ x hx; exact hst x hx
  | cons seg rest ih =>
    intro st hst hsl x hx
    rw [List.foldl_cons] at hx
    refine ih (normStep false st seg) ?_ (fun q hq => hsl q (List.mem_cons_of_mem _ hq)) x hx
    intro y hy
    rcases normStep_false_mem st seg (hsl seg (List.mem_cons_self _ _)) y hy with hy | hy
    · exact hst y hy
    · exact ⟨hy.2.1, hy.2.2⟩

/-- Every element of a resolved stack is nonempty and slash-free. -/
theorem pathStack_segOk (flag : Bool) (s : JStr) :
    ∀ x ∈ pathStack flag s, segOk x := by
  intro x hx
  exact foldl_normStep_segOk flag (splitOnSlash s) [] (by simp)
    (splitOnSlash_mem_no_slash s) x hx

/-- With climbing disabled, every element of a resolved stack is also
a plain segment. -/
theorem pathStack_false_clean (s : JStr) :
    ∀ x ∈ pathStack false s, segOk x ∧ plainSeg x := by
  intro x hx
  exact foldl_normStep_false_clean (splitOnSlash s) [] (by simp)
    (splitOnSlash_mem_no_slash s) x hx

theorem renderSegs_ne_nil (st : List JStr) (h0 : st ≠ []) (h1 : ∀ x ∈ st, x ≠ []) :
    renderSegs st ≠ [] := by
  cases st with
  | nil => exact absurd rfl h0
  | cons x rest =>
    cases rest with
    | nil => exact h1 x (List.mem_cons_self _ _)
    | cons y more =>
      show x ++ '/' :: renderSegs (y :: more) ≠ []
      simp

theorem splitOnSlash_renderSegs (st : List JStr) (h0 : st ≠ [])
    (h1 : ∀ x ∈ st, '/' ∉ x) : splitOnSlash (renderSegs st) = st := by
  induction st with
  | nil => exact absurd rfl h0
  | cons x rest ih =>
    cases rest with
    | nil =>
      show splitOnSlash x = [x]
      exact splitOnSlash_no_slash x (h1 x (List.mem_cons_self _ _))
    | cons y more =>
      show splitOnSlash (x ++ '/' :: renderSegs (y :: more)) = x :: y :: more
      rw [splitOnSlash_append, splitOnSlash_no_slash x (h1 x (List.mem_cons_self _ _)),
        ih (by simp) (fun q hq => h1 q (List.mem_cons_of_mem _ hq))]
      rfl

theorem isAbsolutePath_cons (c : Char) (t : JStr) :
    isAbsolutePath (c :: t) = decide (c = '/') := rfl

theorem isAbsolutePath_append (a t : JStr) (h : isAbsolutePath a = true) :
    isAbsolutePath (a ++ t) = true := by
  cases a with
  | nil => exact absurd h (by simp [isAbsolutePath])
  | cons c rest =>
    rw [isAbsolutePath_cons] at h
    show isAbsolutePath (c :: (rest ++ t)) = true
    rw [isAbsolutePath_cons]
    exact h

theorem isAbsolutePath_renderSegs (st : List JStr) (h : ∀ x ∈ st, segOk x) :
    isAbsolutePath (renderSegs st) = false := by
  cases st with
  | nil => rfl
  | cons x rest =>
    obtain ⟨hx0, hx1⟩ := h x (List.mem_cons_self _ _)
    cases hx : x with
    | nil => exact absurd hx hx0
    | cons c t =>
      rw [hx] at hx1
      have hc : c ≠ '/' := fun he => hx1 (he ▸ List.mem_cons_self c t)
      cases rest with
      | nil =>
        show isAbsolutePath (c :: t) = false
        rw [isAbsolutePath_cons]
        simpa using hc
      | cons y more =>
        show isAbsolutePath (c :: (t ++ '/' :: renderSegs (y :: more))) = false
        rw [isAbsolutePath_cons]
        simpa using hc

theorem renderSegs_append_single (st : List JStr) (x : JStr) :
    renderSegs (st ++ [x]) = if st = [] then x else renderSegs st ++ '/' :: x := by
  induction st with
  | nil => simp [renderSegs]
  | cons y rest ih =>
    cases rest with
    | nil => simp [renderSegs]
    | cons z more =>
      rw [if_neg (by simp)]
      show y ++ '/' :: renderSegs ((z :: more) ++ [x]) =
        (y ++ '/' :: renderSegs (z :: more)) ++ '/' :: x
      rw [ih, if_neg (by simp), List.append_assoc]
      rfl

theorem renderSegs_getLast_ne_slash (st : List JStr) (h0 : st ≠ [])
    (h : ∀ x ∈ st, segOk x) : (renderSegs st).getLast? ≠ some '/' := by
  induction st with
  | nil => exact absurd rfl h0
  | cons x rest ih =>
    cases rest with
    | nil =>
      obtain ⟨hx0, hx1⟩ := h x (List.mem_cons_self _ _)
      show x.getLast? ≠ some '/'
      intro hlast
      rcases List.mem_getLast?_eq_getLast hlast with ⟨hne, hform⟩
      exact hx1 (hform ▸ List.getLast_mem hne)
    | cons y more =>
      show (x ++ '/' :: renderSegs (y :: more)).getLast? ≠ some '/'
      have hren : renderSegs (y :: more) ≠ [] :=
        renderSegs_ne_nil (y :: more) (by simp)
          (fun q hq => (h q (List.mem_cons_of_mem _ hq)).1)
      rw [List.getLast?_append_of_ne_nil x (by simp)]
      have h2 : ('/' :: renderSegs (y :: more)).getLast? = (renderSegs (y :: more)).getLast? := by
        cases hr : renderSegs (y :: more) with
        | nil => exact absurd hr hren
        | cons a b => exact List.getLast?_append_of_ne_nil ['/'] (by simp)
      rw [h2]
      exact ih (by simp) (fun q hq => h q (List.mem_cons_of_mem _ hq))

theorem isAbsolutePath_append_left (b t : JStr) (h : b ≠ []) :
    isAbsolutePath (b ++ t) = isAbsolutePath b := by
  cases b with
  | nil => exact absurd rfl h
  | cons c r => rfl

theorem normalizePath_abs_eq (s : JStr) (habs : isAbsolutePath s = true) :
    normalizePath s =
      if renderSegs (pathStack false s) = [] then ['/']
      else '/' :: (if s.getLast? = some '/' then renderSegs (pathStack false s) ++ ['/']
        else renderSegs (pathStack false s)) := by
  have h0 : s ≠ [] := by
    intro h
    rw [h] at habs
    exact absurd habs (by decide)
  simp only [normalizePath, if_neg h0, habs, Bool.not_true]
  by_cases hb : renderSegs (pathStack false s) = []
  · simp [hb]
  · simp [hb]

theorem isAbsolutePath_normalizePath (s : JStr) :
    isAbsolutePath (normalizePath s) = isAbsolutePath s := by
  by_cases h0 : s = []
  · subst h0; rfl
  · cases habs : isAbsolutePath s with
    | true =>
      rw [normalizePath_abs_eq s habs]
      by_cases hb : renderSegs (pathStack false s) = []
      · rw [if_pos hb]; rfl
      · rw [if_neg hb]; rfl
    | false =>
      simp only [normalizePath, if_neg h0, habs, Bool.not_false]
      by_cases hb : renderSegs (pathStack true s) = []
      · rw [if_pos hb]
        by_cases htr : s.getLast? = some '/'
        · rw [if_pos htr]; rfl
        · rw [if_neg htr]; rfl
      · rw [if_neg hb]
        simp only [Bool.false_eq_true, if_false]
        have hsub : isAbsolutePath (renderSegs (pathStack true s)) = false :=
          isAbsolutePath_renderSegs _ (pathStack_segOk true s)
        by_cases htr : s.getLast? = some '/'
        · rw [if_pos htr, isAbsolutePath_append_left _ _ hb]
          exact hsub
        · rw [if_neg htr]
          exact hsub

theorem pathStack_normalizePath_abs (s : JStr) (habs : isAbsolutePath s = true) :
    pathStack false (normalizePath s) = pathStack false s := by
  rw [normalizePath_abs_eq s habs]
  have hclean := pathStack_false_clean s
  by_cases hstnil : pathStack false s = []
  · rw [hstnil]
    simp [renderSegs]
    decide
  · have hrnil : renderSegs (pathStack false s) ≠ [] :=
      renderSegs_ne_nil _ hstnil (fun x hx => (hclean x hx).1.1)
    rw [if_neg hrnil]
    have hsplit : splitOnSlash (renderSegs (pathStack false s)) = pathStack false s :=
      splitOnSlash_renderSegs _ hstnil (fun x hx => (hclean x hx).1.2)
    have hplain : ∀ seg ∈ pathStack false s, plainSeg seg := fun seg hs => (hclean seg hs).2
    by_cases htr : s.getLast? = some '/'
    · rw [if_pos htr]
      show (splitOnSlash ('/' :: (renderSegs (pathStack false s) ++ '/' :: []))).foldl
        (normStep false) [] = pathStack false s
      rw [show splitOnSlash ('/' :: (renderSegs (pathStack false s) ++ '/' :: [])) =
          [] :: splitOnSlash (renderSegs (pathStack false s) ++ '/' :: []) from by
        simp [splitOnSlash]]
      rw [splitOnSlash_append, hsplit, List.foldl_cons]
      rw [show normStep false [] [] = [] from by simp [normStep]]
      rw [List.foldl_append, foldl_normStep_plain false _ [] hplain]
      simp [splitOnSlash, normStep]
    · rw [if_neg htr]
      show (splitOnSlash ('/' :: renderSegs (pathStack false s))).foldl
        (normStep false) [] = pathStack false s
      rw [show splitOnSlash ('/' :: renderSegs (pathStack false s)) =
          [] :: splitOnSlash (renderSegs (pathStack false s)) from by simp [splitOnSlash]]
      rw [hsplit, List.foldl_cons]
      rw [show normStep false [] [] = [] from by simp [normStep]]
      rw [foldl_normStep_plain false _ [] hplain]
      rfl

theorem nsegsOf_abs (s : JStr) (habs : isAbsolutePath s = true) :
    nsegsOf s = pathStack false s := by
  unfold nsegsOf
  rw [habs]
  rfl

theorem nsegsOf_normalizePath (s : JStr) (habs : isAbsolutePath s = true) :
    nsegsOf (normalizePath s) = nsegsOf s := by
  rw [nsegsOf_abs s habs,
    nsegsOf_abs (normalizePath s) (by rw [isAbsolutePath_normalizePath]; exact habs)]
  exact pathStack_normalizePath_abs s habs

theorem goodRel_ne_nil (r : JStr) (h : goodRel r) : r ≠ [] := by
  intro he
  subst he
  exact (h [] (by simp [splitOnSlash])).1 rfl

theorem nsegsOf_join_abs (a r : JStr) (ha : isAbsolutePath a = true) (hr : goodRel r) :
    nsegsOf (joinPath a r) = pathStack false a ++ splitOnSlash r ∧
      isAbsolutePath (joinPath a r) = true := by
  have ha0 : a ≠ [] := by
    intro h
    rw [h] at ha
    exact absurd ha (by decide)
  have hr0 : r ≠ [] := goodRel_ne_nil r hr
  rw [joinPath, if_neg (fun hc => ha0 hc.1), if_neg ha0, if_neg hr0]
  have habs2 : isAbsolutePath (a ++ '/' :: r) = true := isAbsolutePath_append a _ ha
  refine ⟨?_, ?_⟩
  · rw [nsegsOf_normalizePath _ habs2, nsegsOf_abs _ habs2]
    unfold pathStack
    rw [splitOnSlash_append, List.foldl_append]
    exact foldl_normStep_plain false (splitOnSlash r) _ hr
  · rw [isAbsolutePath_normalizePath]
    exact habs2

theorem listPrefixB_append_self : ∀ (l t : List JStr), listPrefixB l (l ++ t) = true := by
  intro l t
  induction l with
  | nil => rfl
  | cons x rest ih => simp [listPrefixB, ih]

theorem listPrefixB_refl (l : List JStr) : listPrefixB l l = true := by
  have := listPrefixB_append_self l []
  simpa using this

/-- Equal resolved segments and absoluteness give the (reflexive)
descendant relation. -/
theorem desc_of_eq_nsegs (p ip : JStr) (h1 : isAbsolutePath p = isAbsolutePath ip)
    (h2 : nsegsOf p = nsegsOf ip) : isDescendantOf p ip = true := by
  unfold isDescendantOf
  rw [h1, h2, listPrefixB_refl]
  simp

/-- Joining a plain relative name onto the normalized install root
lands inside the root. -/
theorem desc_of_join (ip r : JStr) (hip : isAbsolutePath ip = true) (hr : goodRel r) :
    isDescendantOf (joinPath (normalizePath ip) r) ip = true := by
  have hnip : isAbsolutePath (normalizePath ip) = true := by
    rw [isAbsolutePath_normalizePath]
    exact hip
  obtain ⟨hsegs, habs⟩ := nsegsOf_join_abs (normalizePath ip) r hnip hr
  unfold isDescendantOf
  rw [hsegs, habs, hip, pathStack_normalizePath_abs ip hip, nsegsOf_abs ip hip,
    listPrefixB_append_self]
  rfl

/-- Joining the empty hint reduces to the normalized root itself. -/
theorem desc_join_nil (ip : JStr) (hip : isAbsolutePath ip = true) :
    isDescendantOf (joinPath (normalizePath ip) []) ip = true := by
  have hnip : isAbsolutePath (normalizePath ip) = true := by
    rw [isAbsolutePath_normalizePath]; exact hip
  have hnip0 : normalizePath ip ≠ [] := by
    intro h
    rw [h] at hnip
    exact absurd hnip (by decide)
  rw [joinPath, if_neg (fun hc => hnip0 hc.1), if_neg hnip0, if_pos rfl]
  refine desc_of_eq_nsegs _ _ ?_ ?_
  · rw [isAbsolutePath_normalizePath, isAbsolutePath_normalizePath]
  · rw [nsegsOf_normalizePath _ hnip, nsegsOf_normalizePath _ hip]

/-- Joining the hint `"."` also reduces to the normalized root. -/
theorem desc_join_dot (ip : JStr) (hip : isAbsolutePath ip = true) :
    isDescendantOf (joinPath (normalizePath ip) ['.']) ip = true := by
  have hnip : isAbsolutePath (normalizePath ip) = true := by
    rw [isAbsolutePath_normalizePath]; exact hip
  have hnip0 : normalizePath ip ≠ [] := by
    intro h
    rw [h] at hnip
    exact absurd hnip (by decide)
  rw [joinPath, if_neg (fun hc => hnip0 hc.1), if_neg hnip0, if_neg (by simp)]
  have habs2 : isAbsolutePath (normalizePath ip ++ '/' :: ['.']) = true :=
    isAbsolutePath_append _ _ hnip
  refine desc_of_eq_nsegs _ _ ?_ ?_
  · rw [isAbsolutePath_normalizePath, habs2, hip]
  · rw [nsegsOf_normalizePath _ habs2, nsegsOf_abs _ habs2, nsegsOf_abs _ hip]
    unfold pathStack
    rw [splitOnSlash_append, List.foldl_append]
    rw [show splitOnSlash ['.'] = [['.']] from by decide]
    rw [show ∀ st, List.foldl (normStep false) st [['.']] = st from fun st => by
      simp [normStep]]
    exact (pathStack_normalizePath_abs ip hip)

theorem strStartsWith_length : ∀ (s p : JStr), strStartsWith s p = true → p.length ≤ s.length := by
  intro s
  induction s with
  | nil =>
    intro p h
    cases p with
    | nil => simp
    | cons q t => exact absurd h (by simp [strStartsWith])
  | cons c rest ih =>
    intro p h
    cases p with
    | nil => simp
    | cons q t =>
      rw [strStartsWith] at h
      rcases Bool.and_eq_true_iff.mp h with ⟨_, h2⟩
      simpa using Nat.succ_le_succ (ih t h2)

theorem startsWith_false_of_length (s p : JStr) (h : s.length < p.length) :
    strStartsWith s p = false := by
  by_cases hs : strStartsWith s p = true
  · exact absurd (strStartsWith_length s p hs) (by omega)
  · simpa using hs

theorem renderSegs_concat_length (st : List JStr) (x : JStr) (hx : x ≠ []) :
    (renderSegs st).length < (renderSegs (st ++ [x])).length := by
  rw [renderSegs_append_single]
  by_cases h : st = []
  · rw [if_pos h, h]
    show (renderSegs []).length < x.length
    cases x with
    | nil => exact absurd rfl hx
    | cons c t => simp [renderSegs]
  · rw [if_neg h]
    simp

theorem normStep_dotdot_concat (flag : Bool) (S0 : List JStr) (x : JStr)
    (hx : x ≠ ['.', '.']) : normStep flag (S0 ++ [x]) ['.', '.'] = S0 := by
  have h1 : (S0 ++ [x]).getLast? = some x := by simp
  simp [normStep, h1, hx, List.dropLast_concat]

/-- Joining `".."` onto the normalized install root either stays at
the root (when the root has no segments) or produces a strict ancestor
whose normalization can never pass the string-prefix containment
check. -/
theorem hint_dotdot (ip : JStr) (hip : isAbsolutePath ip = true) :
    isDescendantOf (joinPath (normalizePath ip) ['.', '.']) ip = true ∨
      strStartsWith (normalizePath (joinPath (normalizePath ip) ['.', '.']))
        (normalizePath ip) = false := by
  have hnip : isAbsolutePath (normalizePath ip) = true := by
    rw [isAbsolutePath_normalizePath]; exact hip
  have hnip0 : normalizePath ip ≠ [] := by
    intro h
    rw [h] at hnip
    exact absurd hnip (by decide)
  have hjoin : joinPath (normalizePath ip) ['.', '.'] =
      normalizePath (normalizePath ip ++ '/' :: ['.', '.']) := by
    rw [joinPath, if_neg (fun hc => hnip0 hc.1), if_neg hnip0, if_neg (by simp)]
  have habs2 : isAbsolutePath (normalizePath ip ++ '/' :: ['.', '.']) = true :=
    isAbsolutePath_append _ _ hnip
  have hstack : pathStack false (normalizePath ip ++ '/' :: ['.', '.']) =
      normStep false (pathStack false ip) ['.', '.'] := by
    unfold pathStack
    rw [splitOnSlash_append, List.foldl_append,
      show splitOnSlash ['.', '.'] = [['.', '.']] from by decide]
    rw [show (splitOnSlash (normalizePath ip)).foldl (normStep false) [] =
        pathStack false (normalizePath ip) from rfl,
      pathStack_normalizePath_abs ip hip]
    rfl
  have hclean := pathStack_false_clean ip
  rcases List.eq_nil_or_concat (pathStack false ip) with hS | ⟨S0, x, hSx⟩
  · left
    rw [hjoin]
    refine desc_of_eq_nsegs _ _ ?_ ?_
    · rw [isAbsolutePath_normalizePath, habs2, hip]
    · rw [nsegsOf_normalizePath _ habs2, nsegsOf_abs _ habs2, nsegsOf_abs _ hip, hstack, hS]
      simp [normStep]
  · right
    rw [List.concat_eq_append] at hSx
    have hxmem : x ∈ pathStack false ip := by rw [hSx]; simp
    obtain ⟨⟨hx0, _⟩, ⟨_, _, hxdd⟩⟩ := hclean x hxmem
    have hpop : normStep false (pathStack false ip) ['.', '.'] = S0 := by
      rw [hSx]
      exact normStep_dotdot_concat false S0 x hxdd
    have hS0sub : ∀ q ∈ S0, segOk q ∧ plainSeg q := by
      intro q hq
      exact hclean q (by rw [hSx]; exact List.mem_append_left _ hq)
    -- the joined path in explicit form
    have hexe : joinPath (normalizePath ip) ['.', '.'] =
        (if renderSegs S0 = [] then ['/'] else '/' :: renderSegs S0) := by
      rw [hjoin, normalizePath_abs_eq _ habs2, hstack, hpop]
      have htr : (normalizePath ip ++ '/' :: ['.', '.']).getLast? ≠ some '/' := by
        rw [List.getLast?_append_of_ne_nil _ (by simp)]
        decide
      by_cases hb : renderSegs S0 = []
      · rw [if_pos hb, if_pos hb]
      · rw [if_neg hb, if_neg htr, if_neg hb]
    -- length of the normalized install root
    have hlenip : 1 + (renderSegs (pathStack false ip)).length ≤ (normalizePath ip).length := by
      rw [normalizePath_abs_eq ip hip]
      have hrnil : renderSegs (pathStack false ip) ≠ [] := by
        refine renderSegs_ne_nil _ (by rw [hSx]; simp) ?_
        intro q hq
        exact (hclean q hq).1.1
      rw [if_neg hrnil]
      by_cases htr : ip.getLast? = some '/'
      · rw [if_pos htr]
        simp only [List.length_cons, List.length_append, List.length_nil]
        omega
      · rw [if_neg htr]
        simp only [List.length_cons]
        omega
    have hSlen : (renderSegs S0).length < (renderSegs (pathStack false ip)).length := by
      rw [hSx]
      exact renderSegs_concat_length S0 x hx0
    by_cases hb : renderSegs S0 = []
    · rw [hexe, if_pos hb]
      rw [show normalizePath ['/'] = ['/'] from by decide]
      refine startsWith_false_of_length _ _ ?_
      rw [hb] at hSlen
      simp only [List.length_cons, List.length_nil] at hSlen ⊢
      omega
    · rw [hexe, if_neg hb]
      have hS00 : S0 ≠ [] := by
        intro h
        rw [h] at hb
        exact hb rfl
      have habs3 : isAbsolutePath ('/' :: renderSegs S0) = true := by
        rw [isAbsolutePath_cons]
        decide
      have hstack3 : pathStack false ('/' :: renderSegs S0) = S0 := by
        unfold pathStack
        rw [show splitOnSlash ('/' :: renderSegs S0) = [] :: splitOnSlash (renderSegs S0)
            from by simp [splitOnSlash]]
        rw [splitOnSlash_renderSegs S0 hS00 (fun q hq => (hS0sub q hq).1.2), List.foldl_cons]
        rw [show normStep false [] [] = [] from by simp [normStep]]
        exact foldl_normStep_plain false S0 [] (fun q hq => (hS0sub q hq).2)
      have hnorm3 : normalizePath ('/' :: renderSegs S0) = '/' :: renderSegs S0 := by
        rw [normalizePath_abs_eq _ habs3, hstack3, if_neg hb]
        have htr3 : ('/' :: renderSegs S0).getLast? ≠ some '/' := by
          rw [show ('/' :: renderSegs S0) = ['/'] ++ renderSegs S0 from rfl,
            List.getLast?_append_of_ne_nil _ hb]
          exact renderSegs_getLast_ne_slash S0 hS00 (fun q hq => (hS0sub q hq).1)
        rw [if_neg htr3]
      rw [hnorm3]
      refine startsWith_false_of_length _ _ ?_
      simp only [List.length_cons]
      omega

theorem basenameStr_no_slash (e : JStr) : '/' ∉ basenameStr e := by
  intro h
  unfold basenameStr at h
  rw [List.mem_reverse] at h
  have := List.mem_takeWhile_imp h
  simp at this

theorem slug_chars (name : JStr) :
    ∀ c ∈ slug name, (('a' ≤ c ∧ c ≤ 'z') ∨ ('0' ≤ c ∧ c ≤ '9')) := by
  intro c hc
  unfold slug at hc
  have := List.of_mem_filter hc
  simpa using this

theorem slug_no_slash (name : JStr) : '/' ∉ slug name := by
  intro h
  have := slug_chars name '/' h
  revert this
  decide

theorem slug_no_dot (name : JStr) : '.' ∉ slug name := by
  intro h
  have := slug_chars name '.' h
  revert this
  decide

instance plainSegDec : DecidablePred plainSeg := fun seg => by
  unfold plainSeg
  infer_instance

instance goodRelDec (r : JStr) : Decidable (goodRel r) := by
  unfold goodRel
  infer_instance

theorem goodRel_single (r : JStr) (h0 : r ≠ []) (hs : '/' ∉ r) (h1 : r ≠ ['.'])
    (h2 : r ≠ ['.', '.']) : goodRel r := by
  intro seg hseg
  rw [splitOnSlash_no_slash r hs] at hseg
  rw [List.mem_singleton.mp hseg]
  exact ⟨h0, h1, h2⟩

theorem slug_sh_good (s : JStr) (t : JStr) (ht : t = js ".sh" ∨ t = js ".exe")
    (hsl : '/' ∉ s) (_hdot : '.' ∉ s) : goodRel (s ++ t) := by
  have hlen : 3 ≤ t.length ∧ '/' ∉ t := by
    rcases ht with ht | ht <;> rw [ht] <;> exact ⟨by decide, by decide⟩
  refine goodRel_single _ ?_ ?_ ?_ ?_
  · intro h
    rcases List.append_eq_nil.mp h with ⟨_, h2⟩
    rw [h2] at hlen
    exact absurd hlen.1 (by decide)
  · intro h
    rcases List.mem_append.mp h with h | h
    · exact hsl h
    · exact hlen.2 h
  · intro h
    have : s.length + t.length = 1 := by
      rw [← List.length_append, h]
      rfl
    omega
  · intro h
    have : s.length + t.length = 2 := by
      rw [← List.length_append, h]
      rfl
    omega

theorem slug_bare_good (name : JStr) (h0 : slug name ≠ []) : goodRel (slug name) := by
  refine goodRel_single _ h0 (slug_no_slash name) ?_ ?_
  · intro h
    exact slug_no_dot name (h ▸ List.mem_singleton_self '.')
  · intro h
    exact slug_no_dot name (h ▸ List.mem_cons_self '.' ['.'])

theorem commonLinux_good (gp n : JStr) (h : n ∈ commonLinuxNames gp) :
    goodRel n ∨ n = [] := by
  simp only [commonLinuxNames, List.mem_cons, List.not_mem_nil, or_false] at h
  rcases h with h | h | h | h | h | h | h | h | h
  all_goals subst h
  · exact Or.inl (by decide)
  · exact Or.inl (by decide)
  · exact Or.inl (by decide)
  · exact Or.inl (by decide)
  · exact Or.inl (slug_sh_good _ _ (Or.inl rfl)
      (slug_no_slash (basenameStr gp)) (slug_no_dot (basenameStr gp)))
  · by_cases hz : slug (basenameStr gp) = []
    · exact Or.inr hz
    · exact Or.inl (slug_bare_good _ hz)
  · exact Or.inl (by decide)
  · exact Or.inl (by decide)
  · exact Or.inl (by decide)

theorem commonWindows_good (gp n : JStr) (h : n ∈ commonWindowsNames gp) :
    goodRel n := by
  simp only [commonWindowsNames, List.mem_cons, List.not_mem_nil, or_false] at h
  rcases h with h | h | h | h | h | h | h | h
  all_goals subst h
  · decide
  · decide
  · decide
  · decide
  · exact slug_sh_good _ _ (Or.inr rfl)
      (slug_no_slash (basenameStr gp)) (slug_no_dot (basenameStr gp))
  · decide
  · decide
  · decide

/-- The hint branch, join of the hint's basename onto the root, either
stays inside the root or is rejected by the containment check. -/
theorem hint_branch_desc (ip e : JStr) (hip : isAbsolutePath ip = true) :
    isDescendantOf (joinPath (normalizePath ip) (basenameStr e)) ip = true ∨
      strStartsWith (normalizePath (joinPath (normalizePath ip) (basenameStr e)))
        (normalizePath ip) = false := by
  have hns : '/' ∉ basenameStr e := basenameStr_no_slash e
  by_cases h0 : basenameStr e = []
  · rw [h0]
    exact Or.inl (desc_join_nil ip hip)
  · by_cases h1 : basenameStr e = ['.']
    · rw [h1]
      exact Or.inl (desc_join_dot ip hip)
    · by_cases h2 : basenameStr e = ['.', '.']
      · rw [h2]
        exact hint_dotdot ip hip
      · exact Or.inl (desc_of_join ip _ hip (goodRel_single _ h0 hns h1 h2))

/-- Every candidate produced by the heuristic platform searches is a
descendant of the install root. -/
theorem search_mem_desc (fs : FSModel) (w : Bool) (ip : JStr) (files : List JStr)
    (exe : JStr) (hip : isAbsolutePath ip = true)
    (hfiles : ∀ f ∈ files, f ≠ [] ∧ '/' ∉ f ∧ f ≠ ['.'] ∧ f ≠ ['.', '.'])
    (hmem : exe ∈ (if w then findWindowsExecutables fs (normalizePath ip) files
      else findLinuxExecutables fs (normalizePath ip) files)) :
    isDescendantOf exe ip = true := by
  cases w with
  | true =>
    rw [if_pos rfl] at hmem
    unfold findWindowsExecutables at hmem
    rw [(prioritize_perm _).mem_iff] at hmem
    rcases List.mem_append.mp hmem with hmem | hmem
    · rw [commonHits_eq] at hmem
      rcases List.mem_map.mp hmem with ⟨n, hn, he⟩
      have hn' := List.mem_of_mem_filter hn
      subst he
      exact desc_of_join ip n hip (commonWindows_good _ n hn')
    · rw [winScanHits_eq] at hmem
      rcases List.mem_map.mp hmem with ⟨f, hf, he⟩
      have hf' := List.mem_of_mem_filter hf
      subst he
      obtain ⟨h0, h1, h2, h3⟩ := hfiles f hf'
      exact desc_of_join ip f hip (goodRel_single f h0 h1 h2 h3)
  | false =>
    rw [if_neg (by simp)] at hmem
    unfold findLinuxExecutables at hmem
    rw [(prioritize_perm _).mem_iff] at hmem
    rcases List.mem_append.mp hmem with hmem | hmem
    · rw [commonHits_eq] at hmem
      rcases List.mem_map.mp hmem with ⟨n, hn, he⟩
      have hn' := List.mem_of_mem_filter hn
      subst he
      rcases commonLinux_good _ n hn' with hg | hg
      · exact desc_of_join ip n hip hg
      · rw [hg]
        exact desc_join_nil ip hip
    · rw [scanHits_eq] at hmem
      rcases List.mem_map.mp hmem with ⟨f, hf, he⟩
      have hf' := List.mem_of_mem_filter hf
      subst he
      obtain ⟨h0, h1, h2, h3⟩ := hfiles f hf'
      exact desc_of_join ip f hip (goodRel_single f h0 h1 h2 h3)

/-- Master structural lemma: whatever path `findExecutable` returns is
either a descendant of the install root, or it is an ancestor produced
by a `".."` hint, which the containment check of the validator then
rejects. -/
theorem findExec_desc (fs : FSModel) (w : Bool) (game : LibraryGame) (ip exe : JStr)
    (chm : List JStr) (hip : game.installPath = some ip)
    (habs : isAbsolutePath ip = true) (hwf : readdirWF fs)
    (hfind : findExecutable fs w game = .ok (exe, chm)) :
    isDescendantOf exe ip = true ∨
      strStartsWith (normalizePath exe) (normalizePath ip) = false := by
  simp only [findExecutable, hip] at hfind
  by_cases h0 : ip = []
  · rw [if_pos h0] at hfind
    exact absurd hfind (by simp)
  rw [if_neg h0] at hfind
  by_cases h1 : fs.pathExists (normalizePath ip) = true
  swap
  · rw [if_pos (by simpa using h1)] at hfind
    exact absurd hfind (by simp)
  rw [if_neg (by simpa using h1)] at hfind
  have hscan : ∀ hf : Except FindError (JStr × List JStr),
      hf = (match fs.readdir (normalizePath ip) with
        | .error _ => .error .fsError
        | .ok files =>
          match (if w then findWindowsExecutables fs (normalizePath ip) files
            else findLinuxExecutables fs (normalizePath ip) files) with
          | [] => .error .noExecutable
          | exe0 :: _ =>
            if w then .ok (exe0, []) else .ok (exe0, [exe0])) →
      hf = .ok (exe, chm) →
      isDescendantOf exe ip = true ∨
        strStartsWith (normalizePath exe) (normalizePath ip) = false := by
    intro hf hdef hok
    subst hdef
    cases hrd : fs.readdir (normalizePath ip) with
    | error u =>
      rw [hrd] at hok
      exact absurd hok (by simp)
    | ok files =>
      rw [hrd] at hok
      have hfiles := hwf _ _ hrd
      have hok2 : (match (if w = true then findWindowsExecutables fs (normalizePath ip) files
          else findLinuxExecutables fs (normalizePath ip) files) with
        | [] => (Except.error FindError.noExecutable : Except FindError (JStr × List JStr))
        | exe0 :: _ => if w = true then Except.ok (exe0, []) else Except.ok (exe0, [exe0])) =
          Except.ok (exe, chm) := hok
      cases hex : (if w = true then findWindowsExecutables fs (normalizePath ip) files
          else findLinuxExecutables fs (normalizePath ip) files) with
      | nil =>
        rw [hex] at hok2
        exact absurd hok2 (by simp)
      | cons exe0 rest =>
        rw [hex] at hok2
        have hok3 : (if w = true then Except.ok (exe0, ([] : List JStr))
            else Except.ok (exe0, [exe0])) = Except.ok (exe, chm) := hok2
        have hexeq : exe0 = exe := by
          cases w with
          | true =>
            simp only [if_pos rfl] at hok3
            exact (Prod.mk.injEq _ _ _ _ ▸ Except.ok.inj hok3).1
          | false =>
            simp only [Bool.false_eq_true, if_false] at hok3
            exact (Prod.mk.injEq _ _ _ _ ▸ Except.ok.inj hok3).1
        refine Or.inl (search_mem_desc fs w ip files exe habs hfiles ?_)
        have hm : exe ∈ (if w = true then findWindowsExecutables fs (normalizePath ip) files
            else findLinuxExecutables fs (normalizePath ip) files) := by
          rw [hex, ← hexeq]
          exact List.mem_cons_self _ _
        exact hm
  cases hexec : game.executable with
  | none =>
    rw [hexec] at hfind
    exact hscan _ rfl hfind
  | some e =>
    rw [hexec] at hfind
    have hfind2 : (match (if e = [] then none
        else if fs.pathExists (joinPath (normalizePath ip) (basenameStr e)) = true then
          some (joinPath (normalizePath ip) (basenameStr e))
        else none : Option JStr) with
      | some execPath => (Except.ok (execPath, [execPath]) : Except FindError (JStr × List JStr))
      | none =>
        match fs.readdir (normalizePath ip) with
        | Except.error _ => Except.error FindError.fsError
        | Except.ok files =>
          match (if w = true then findWindowsExecutables fs (normalizePath ip) files
            else findLinuxExecutables fs (normalizePath ip) files) with
          | [] => Except.error FindError.noExecutable
          | exe0 :: _ => if w = true then Except.ok (exe0, []) else Except.ok (exe0, [exe0])) =
        Except.ok (exe, chm) := hfind
    by_cases he0 : e = []
    · rw [if_pos he0] at hfind2
      exact hscan _ rfl hfind2
    rw [if_neg he0] at hfind2
    by_cases hpe : fs.pathExists (joinPath (normalizePath ip) (basenameStr e)) = true
    · rw [if_pos hpe] at hfind2
      have hfind3 : (Except.ok (joinPath (normalizePath ip) (basenameStr e),
          [joinPath (normalizePath ip) (basenameStr e)]) :
          Except FindError (JStr × List JStr)) = Except.ok (exe, chm) := hfind2
      have hexe : joinPath (normalizePath ip) (basenameStr e) = exe :=
        (Prod.mk.injEq _ _ _ _ ▸ Except.ok.inj hfind3).1
      rw [← hexe]
      exact hint_branch_desc ip e habs
    · rw [if_neg hpe] at hfind2
      exact hscan _ rfl hfind2

/-! ## Validator facts -/

theorem validate_ok_startsWith (fs : FSModel) (e ip : JStr)
    (h : validateExecutablePath fs e ip = .ok ()) :
    strStartsWith (normalizePath e) (normalizePath ip) = true := by
  by_cases hs : strStartsWith (normalizePath e) (normalizePath ip) = true
  · exact hs
  · simp only [validateExecutablePath] at h
    rw [if_pos (by simpa using hs)] at h
    exact absurd h (by simp)

theorem validate_escape (fs : FSModel) (e ip : JStr)
    (h : strStartsWith (normalizePath e) (normalizePath ip) = false) :
    validateExecutablePath fs e ip = .error .escapesInstall := by
  simp only [validateExecutablePath]
  rw [if_pos (by simp [h])]

/-! ## Test fixtures -/

/-- Game with a `".."` executable hint that resolves to the parent of
its install directory. -/
def gameB : LibraryGame :=
  ⟨2, js "G", true, some (js "/games/foo"), some (js "..")⟩

/-- Filesystem for `gameB`: both `/games/foo` and its parent exist. -/
def fsB : FSModel where
  pathExists := fun p => p = js "/games/foo" || p = js "/games"
  isFile := fun _ => false
  isDirectory := fun _ => true
  readdir := fun _ => .error ()
  readFile := fun _ => .error ()
  readdirEnts := fun _ => .error ()
  spawnOk := fun _ => true
  killThrows := fun _ => false

/-- Variant of `fsA` on which the OS refuses to create the process. -/
def fsNoSpawn : FSModel where
  pathExists := fun p => p = js "/g" || p = js "/g/run.sh"
  isFile := fun p => p = js "/g/run.sh"
  isDirectory := fun p => p = js "/g"
  readdir := fun _ => .ok [js "run.sh"]
  readFile := fun _ => .error ()
  readdirEnts := fun _ => .error ()
  spawnOk := fun _ => false
  killThrows := fun _ => false

/-- Filesystem whose kill call always throws. -/
def fsKill : FSModel where
  pathExists := fun _ => false
  isFile := fun _ => false
  isDirectory := fun _ => false
  readdir := fun _ => .error ()
  readFile := fun _ => .error ()
  readdirEnts := fun _ => .error ()
  spawnOk := fun _ => true
  killThrows := fun _ => true

/-- Detection fixture: root `/r` has subdirectories `a` and `b`;
listing `a` fails, `b` contains `renpy.sh`. -/
def fsC4 : FSModel where
  pathExists := fun p => p = js "/r"
  isFile := fun _ => false
  isDirectory := fun _ => true
  readdir := fun p => if p = js "/r/b" then .ok [js "renpy.sh"] else .error ()
  readFile := fun _ => .error ()
  readdirEnts := fun p => if p = js "/r" then .ok [(js "a", true), (js "b", true)] else .error ()
  spawnOk := fun _ => true
  killThrows := fun _ => false

/-- Content-sniff fixture: `/g/data` has a `"#!/"` marker in the
middle of its content, not at the start. -/
def fsC8 : FSModel where
  pathExists := fun p => p = js "/g" || p = js "/g/data"
  isFile := fun p => p = js "/g/data"
  isDirectory := fun _ => false
  readdir := fun _ => .ok [js "data"]
  readFile := fun p => if p = js "/g/data" then .ok (js "xx #!/ yy") else .error ()
  readdirEnts := fun _ => .error ()
  spawnOk := fun _ => true
  killThrows := fun _ => false

theorem fsA_wf : readdirWF fsA := by
  intro d files h
  have hf : files = [js "run.sh"] := (Except.ok.inj h).symm
  subst hf
  intro f hf
  rw [List.mem_singleton.mp hf]
  refine ⟨by decide, by decide, by decide, by decide⟩

theorem fsB_wf : readdirWF fsB := by
  intro d files h
  exact absurd h (by simp [fsB])

theorem fsNoSpawn_wf : readdirWF fsNoSpawn := by
  intro d files h
  have hf : files = [js "run.sh"] := (Except.ok.inj h).symm
  subst hf
  intro f hf
  rw [List.mem_singleton.mp hf]
  refine ⟨by decide, by decide, by decide, by decide⟩

/-! ## Claims C10, C3 -/

/-- C10: for every game record whose `installed` flag is false,
`launchGame` fails with the not-installed error and leaves the
tracked-process table unchanged and issues no spawn, whatever the
filesystem, platform, or install path contents. -/
theorem c10_not_installed_rejected (fs : FSModel) (w : Bool) (running : List Nat)
    (game : LibraryGame) (h : game.installed = false) :
    launchGame fs w running game = ⟨.error .notInstalled, running, []⟩ := by
  unfold launchGame checkPhase
  simp [h]

/-- Witness for C10: a game whose install path is set, exists on disk
and holds a resolvable executable is still rejected when the installed
flag is false, and the resolver alone would have succeeded. -/
theorem c10_witness :
    launchGame fsA false [] ⟨1, js "MyGame", false, some (js "/g"), some (js "run.sh")⟩ =
      ⟨.error .notInstalled, [], []⟩ ∧
    findExecutable fsA false ⟨1, js "MyGame", false, some (js "/g"), some (js "run.sh")⟩ =
      .ok (js "/g/run.sh", [js "/g/run.sh"]) :=
  ⟨c10_not_installed_rejected fsA false []
      ⟨1, js "MyGame", false, some (js "/g"), some (js "run.sh")⟩ rfl,
    by decide⟩

/-- Counterexample for C3: with a tracked game whose kill call throws,
`stopGame` rethrows the error to the caller and the tracked entry is
NOT removed — the claim asserted unconditional removal and an
error-free return. -/
theorem c3_counterexample :
    stopGame fsKill [7] 7 ≠ (.ok (), ([] : List Nat)) ∧
      (stopGame fsKill [7] 7).1 = .error () ∧
      (stopGame fsKill [7] 7).2.contains 7 = true := by decide

/-- C3 (amended): `stopGame` on an untracked id is a no-op that
returns normally; on a tracked id it removes the entry and returns
normally only when the kill call does not throw; when the kill call
throws, the error propagates to the caller and the entry remains
tracked. -/
theorem c3_amended_stop_behaviour (fs : FSModel) (running : List Nat) (gameId : Nat) :
    (running.contains gameId = false → stopGame fs running gameId = (.ok (), running)) ∧
    (running.contains gameId = true → fs.killThrows gameId = false →
      stopGame fs running gameId = (.ok (), running.erase gameId)) ∧
    (running.contains gameId = true → fs.killThrows gameId = true →
      stopGame fs running gameId = (.error (), running)) := by
  refine ⟨?_, ?_, ?_⟩
  · intro h
    have h' : gameId ∉ running := by simpa using h
    unfold stopGame
    simp [h']
  · intro h hk
    have h' : gameId ∈ running := by simpa using h
    unfold stopGame
    simp [h', hk]
  · intro h hk
    have h' : gameId ∈ running := by simpa using h
    unfold stopGame
    simp [h', hk]

/-- Witness for the amended C3: a tracked game is stopped and removed
when the kill succeeds, and an untracked id is a no-op. -/
theorem c3_witness :
    stopGame fsA [7] 7 = (.ok (), []) ∧ stopGame fsA [] 9 = (.ok (), []) := by
  refine ⟨?_, ?_⟩
  · have h := (c3_amended_stop_behaviour fsA [7] 7).2.1 (by decide) (by decide)
    simpa using h
  · exact (c3_amended_stop_behaviour fsA [] 9).1 (by decide)

/-! ## Claim C4 -/

/-- Counterexample for C4: root `/r` lists fine with subdirectories
`a` then `b`; listing `a` fails while `b` holds `renpy.sh` and passes
the Unix signature — yet the scan returns nothing, because the failing
subdirectory aborts the whole loop instead of being skipped. -/
theorem c4_counterexample :
    fsC4.readdirEnts (js "/r") = .ok [(js "a", true), (js "b", true)] ∧
    fsC4.readdir (js "/r/a") = .error () ∧
    fsC4.readdir (js "/r/b") = .ok [js "renpy.sh"] ∧
    hasExecSig false (js "renpy.sh") = true ∧
    detectInstalledGames fsC4 false (js "/r") = [] ∧
    (js "/r/b") ∉ detectInstalledGames fsC4 false (js "/r") := by
  refine ⟨by decide, by decide, by decide, by decide, by decide, by decide⟩

/-- C4 (amended): a missing or unlistable root yields an empty result
without raising; a failing subdirectory listing is swallowed but
aborts the remainder of the scan, returning only what was collected up
to the failing entry; when every subdirectory listing succeeds, every
immediate subdirectory is visited and exactly the signature hits are
returned. -/
theorem c4_amended_detect_behaviour (fs : FSModel) (w : Bool) (p : JStr) :
    (fs.pathExists (normalizePath p) = false → detectInstalledGames fs w p = []) ∧
    (fs.readdirEnts (normalizePath p) = .error () → detectInstalledGames fs w p = []) ∧
    (∀ pre post name acc, fs.readdir (joinPath (normalizePath p) name) = .error () →
      detectLoop fs w (normalizePath p) (pre ++ (name, true) :: post) acc =
        detectLoop fs w (normalizePath p) (pre ++ [(name, true)]) acc) ∧
    (∀ entries, fs.pathExists (normalizePath p) = true →
      fs.readdirEnts (normalizePath p) = .ok entries →
      (∀ pr ∈ entries, pr.2 = true →
        ∃ files, fs.readdir (joinPath (normalizePath p) pr.1) = .ok files) →
      detectInstalledGames fs w p = entries.filterMap (detectEntry fs w (normalizePath p))) := by
  refine ⟨?_, ?_, ?_, ?_⟩
  · intro h
    unfold detectInstalledGames
    simp [h]
  · intro h
    unfold detectInstalledGames
    by_cases hpe : fs.pathExists (normalizePath p) = true
    · simp [hpe, h]
    · simp [hpe]
  · intro pre post name acc hfail
    exact detectLoop_abort fs w (normalizePath p) name hfail pre post acc
  · intro entries hpe hents hok
    unfold detectInstalledGames
    simp only [hpe, Bool.true_eq_false, not_true_eq_false, if_false, hents]
    simpa using detectLoop_all_ok fs w (normalizePath p) entries [] hok

/-- Variant of the detection fixture on which every subdirectory
listing succeeds: `a` is empty, `b` holds `renpy.sh`. -/
def fsC4good : FSModel where
  pathExists := fun p => p = js "/r"
  isFile := fun _ => false
  isDirectory := fun _ => true
  readdir := fun p => if p = js "/r/b" then .ok [js "renpy.sh"]
    else if p = js "/r/a" then .ok [] else .error ()
  readFile := fun _ => .error ()
  readdirEnts := fun p => if p = js "/r" then .ok [(js "a", true), (js "b", true)] else .error ()
  spawnOk := fun _ => true
  killThrows := fun _ => false

/-- Witness for the amended C4: a nonexistent root gives an empty
result; the failing entry `a` cuts the scan short on the concrete
fixture; a fully readable root returns exactly the signature hits. -/
theorem c4_witness :
    detectInstalledGames fsC4 false (js "/nope") = [] ∧
    detectLoop fsC4 false (js "/r") [(js "b", true), (js "a", true), (js "b", true)] [] =
      detectLoop fsC4 false (js "/r") [(js "b", true), (js "a", true)] [] ∧
    detectInstalledGames fsC4good false (js "/r") = [js "/r/b"] := by
  refine ⟨?_, ?_, ?_⟩
  · exact (c4_amended_detect_behaviour fsC4 false (js "/nope")).1 (by decide)
  · have h := (c4_amended_detect_behaviour fsC4 false (js "/r")).2.2.1
      [(js "b", true)] [(js "b", true)] (js "a") [] (by decide)
    simpa using h
  · have h := (c4_amended_detect_behaviour fsC4good false (js "/r")).2.2.2
      [(js "a", true), (js "b", true)] (by decide) (by decide) ?_
    · rw [h]
      decide
    · intro pr hpr hd
      rcases List.mem_cons.mp hpr with hp | hp
      · subst hp
        exact ⟨[], by decide⟩
      · rw [List.mem_singleton.mp hp]
        exact ⟨[js "renpy.sh"], by decide⟩

/-! ## Claim C6 -/

/-- C6: with a set (truthy) executable hint, `findExecutable` joins
only the basename of the hint onto the normalized install path — so
directory components in the hint cannot escape the install directory —
and when that path exists it is chmodded to `0o755` and returned, with
the heuristic directory scan never running: the result is the same for
every possible `readdir` oracle. -/
theorem c6_hint_basename_short_circuit (fs : FSModel) (w : Bool) (game : LibraryGame)
    (ip e : JStr) (hip : game.installPath = some ip) (hipne : ip ≠ [])
    (hex : game.executable = some e) (hene : e ≠ [])
    (hexists : fs.pathExists (normalizePath ip) = true)
    (hhint : fs.pathExists (joinPath (normalizePath ip) (basenameStr e)) = true) :
    ∀ rd, findExecutable { fs with readdir := rd } w game =
      .ok (joinPath (normalizePath ip) (basenameStr e),
        [joinPath (normalizePath ip) (basenameStr e)]) := by
  intro rd
  simp only [findExecutable, hip, hex]
  rw [if_neg hipne]
  rw [if_neg (by simpa using hexists)]
  rw [if_neg hene, if_pos (by simpa using hhint)]

/-- Witness for C6: the hinted `run.sh` under `/g` is returned with a
chmod record, with the readdir oracle replaced by a failing one. -/
theorem c6_witness :
    findExecutable { fsA with readdir := fun _ => .error () } false gameA =
      .ok (js "/g/run.sh", [js "/g/run.sh"]) := by
  have h := c6_hint_basename_short_circuit fsA false gameA (js "/g") (js "run.sh")
    rfl (by decide) rfl (by decide) (by decide) (by decide) (fun _ => .error ())
  simpa using h

/-! ## Claim C8 -/

/-- Counterexample for C8: a no-extension file whose content carries
the `"#!/"` marker in the middle — the content neither starts with a
shebang nor mentions python or renpy — is still kept as a candidate by
the Unix scan, refuting the claimed "starts with a shebang"
condition. -/
theorem c8_counterexample :
    (js "/g/data") ∈ scanHits fsC8 (js "/g") [js "data"] ∧
      strStartsWith (readFileOr fsC8 (js "/g/data")) (js "#!") = false ∧
      strIncludes (readFileOr fsC8 (js "/g/data")) (js "python") = false ∧
      strIncludes (readFileOr fsC8 (js "/g/data")) (js "renpy") = false := by
  refine ⟨by decide, by decide, by decide, by decide⟩

/-- C8 (amended): during the Unix scan a non-directory file matching
one of the name patterns is kept as a candidate if and only if its
content CONTAINS the marker `"#!/"` anywhere, or contains "python" or
"renpy"; a failed read is replaced by the empty content, which never
matches, and the scan itself is a total function, so a read failure is
never propagated as an error. -/
theorem c8_amended_scan_sniff (fs : FSModel) (gp : JStr) (files : List JStr) :
    (scanHits fs gp files = (files.filter (fun f =>
        decide (¬ fs.isDirectory (joinPath gp f) ∧ (linuxPatternMatch f ∧
          sniffOk (readFileOr fs (joinPath gp f)))))).map (joinPath gp)) ∧
    (∀ p, fs.readFile p = .error () → sniffOk (readFileOr fs p) = false) ∧
    (∀ content, sniffOk content = (strIncludes content (js "#!/") ||
      strIncludes content (js "python") || strIncludes content (js "renpy"))) := by
  refine ⟨scanHits_eq fs gp files, ?_, fun content => rfl⟩
  intro p hp
  unfold readFileOr
  rw [hp]
  decide

/-- Witness for the amended C8: the scan equation on the concrete
fixture and the no-match default for a failed read. -/
theorem c8_witness :
    scanHits fsC8 (js "/g") [js "data"] = [js "/g/data"] ∧
      sniffOk (readFileOr fsC8 (js "/gone")) = false := by
  refine ⟨?_, (c8_amended_scan_sniff fsC8 (js "/g") []).2.1 (js "/gone") (by decide)⟩
  have h := (c8_amended_scan_sniff fsC8 (js "/g") [js "data"]).1
  rw [h]
  decide

/-! ## Claim C9 -/

/-- C9: the containment check compares normalized paths as plain
string prefixes.  The candidate `/games/foobar/run.sh` is not a
filesystem descendant of the root `/games/foo`, yet its normalized
string extends the root's normalized string, so the escape check
passes; on such a candidate the validator can only fail through the
later existence/file-type checks (the dangerous-character check also
passes here), and it accepts outright when the path is an existing
regular file. -/
theorem c9_prefix_check_not_descendant :
    strStartsWith (normalizePath (js "/games/foobar/run.sh"))
      (normalizePath (js "/games/foo")) = true ∧
    isDescendantOf (js "/games/foobar/run.sh") (js "/games/foo") = false ∧
    (∀ fs : FSModel,
      validateExecutablePath fs (js "/games/foobar/run.sh") (js "/games/foo") ≠
        .error .escapesInstall ∧
      validateExecutablePath fs (js "/games/foobar/run.sh") (js "/games/foo") ≠
        .error .dangerous) ∧
    (∃ fs : FSModel,
      validateExecutablePath fs (js "/games/foobar/run.sh") (js "/games/foo") = .ok ()) ∧
    (∃ fs : FSModel,
      validateExecutablePath fs (js "/games/foobar/run.sh") (js "/games/foo") =
        .error .notExists) := by
  refine ⟨by decide, by decide, ?_, ?_, ?_⟩
  · intro fs
    simp only [validateExecutablePath]
    rw [if_neg (by decide), if_neg (by decide)]
    by_cases h1 : fs.pathExists (normalizePath (js "/games/foobar/run.sh")) = true
    · rw [if_neg (by simpa using h1)]
      by_cases h2 : fs.isFile (normalizePath (js "/games/foobar/run.sh")) = true
      · rw [if_neg (by simpa using h2)]
        exact ⟨by simp, by simp⟩
      · rw [if_pos (by simpa using h2)]
        exact ⟨by simp, by simp⟩
    · rw [if_pos (by simpa using h1)]
      exact ⟨by simp, by simp⟩
  · refine ⟨⟨fun _ => true, fun _ => true, fun _ => false, fun _ => .error (),
      fun _ => .error (), fun _ => .error (), fun _ => true, fun _ => false⟩, ?_⟩
    decide
  · refine ⟨⟨fun _ => false, fun _ => false, fun _ => false, fun _ => .error (),
      fun _ => .error (), fun _ => .error (), fun _ => true, fun _ => false⟩, ?_⟩
    decide

/-! ## Claim C7 -/

/-- Counterexample for C7: `gamedata` is a content-matching candidate
with no extension (no dot at all), yet `prioritizeExecutables` ranks
it ABOVE `run.sh`, because the no-extension candidate contains the
keyword "game" — refuting the claim that `run.sh` ranks above any
no-extension candidate. -/
theorem c7_counterexample :
    prioritizeExecutables [js "run.sh", js "gamedata"] = [js "gamedata", js "run.sh"] ∧
      (js "gamedata").contains '.' = false ∧
      strStartsWith (js "gamedata") (js "run") = false := by
  refine ⟨by decide, by decide, by decide⟩

/-- C7 (amended): `prioritizeExecutables` stably sorts by descending
priority, where each priority predicate tests the full candidate
string: contains "start" > contains "launcher" > contains "game" >
contains "run" > extension `.exe` > extension `.sh` > no dot; ties
keep the input order.  On the example, every one of the six input
orders of `["foo.txt", "run.sh", "start.sh"]` sorts to
`["start.sh", "run.sh", "foo.txt"]`, and `run.sh` outranks a
no-extension candidate provided the candidate contains none of the
four keywords. -/
theorem c7_amended_priority_order :
    (∀ xs : List JStr, (prioritizeExecutables xs).Perm xs ∧
      (prioritizeExecutables xs).Pairwise rankGE ∧
      (∀ k, (prioritizeExecutables xs).filter (fun f => priorityRank f = k) =
        xs.filter (fun f => priorityRank f = k))) ∧
    (∀ l ∈ [[js "foo.txt", js "run.sh", js "start.sh"],
        [js "foo.txt", js "start.sh", js "run.sh"],
        [js "run.sh", js "foo.txt", js "start.sh"],
        [js "run.sh", js "start.sh", js "foo.txt"],
        [js "start.sh", js "foo.txt", js "run.sh"],
        [js "start.sh", js "run.sh", js "foo.txt"]],
      prioritizeExecutables l = [js "start.sh", js "run.sh", js "foo.txt"]) ∧
    priorityRank (js "start.sh") > priorityRank (js "run.sh") ∧
    (∀ c : JStr, c.contains '.' = false →
      strIncludes c (js "start") = false → strIncludes c (js "launcher") = false →
      strIncludes c (js "game") = false → strIncludes c (js "run") = false →
      priorityRank (js "run.sh") > priorityRank c) := by
  refine ⟨?_, by decide, by decide, ?_⟩
  · intro xs
    exact ⟨prioritize_perm xs, prioritize_sorted xs, fun k => prioritize_stable xs k⟩
  · intro c hdot h1 h2 h3 h4
    have hnotin : ('.' : Char) ∉ c := by simpa using hdot
    have hext : extnameStr c = [] := by
      simp only [extnameStr]
      have hb : '.' ∉ (c.reverse.takeWhile (fun x => x ≠ '/')).reverse := by
        intro hm
        rw [List.mem_reverse] at hm
        have hmc := (List.takeWhile_sublist (fun x => decide (x ≠ '/'))).mem hm
        rw [List.mem_reverse] at hmc
        exact hnotin hmc
      have hne : (c.reverse.takeWhile (fun x => x ≠ '/')).reverse ≠ ['.', '.'] := by
        intro he
        exact hb (he ▸ List.mem_cons_self '.' ['.'])
      rw [if_neg hne]
      have hspan : ((c.reverse.takeWhile (fun x => x ≠ '/')).reverse).reverse.span
          (fun x => x ≠ '.') =
          (((c.reverse.takeWhile (fun x => x ≠ '/')).reverse).reverse, []) := by
        rw [List.span_eq_take_drop, Prod.mk.injEq]
        refine ⟨?_, ?_⟩
        · apply List.takeWhile_eq_self_iff.mpr
          intro x hx
          have hx2 : x ∈ c.reverse.takeWhile (fun x => decide (x ≠ '/')) := by
            simpa using hx
          have hxd : x ≠ '.' := by
            intro he
            subst he
            exact hb (by simpa using hx2)
          simpa using hxd
        · apply List.dropWhile_eq_nil_iff.mpr
          intro x hx
          have hx2 : x ∈ c.reverse.takeWhile (fun x => decide (x ≠ '/')) := by
            simpa using hx
          have hxd : x ≠ '.' := by
            intro he
            subst he
            exact hb (by simpa using hx2)
          simpa using hxd
      rw [hspan]
    have hrank : priorityRank c ≤ 1 := by
      unfold priorityRank
      rw [h1, h2, h3, h4, hext]
      simp only [Bool.false_eq_true, if_false]
      have i5 : (if ([] : JStr) = js ".exe" then 4 else 0) = 0 := by decide
      have i6 : (if ([] : JStr) = js ".sh" then 2 else 0) = 0 := by decide
      rw [i5, i6]
      split <;> omega
    have hr : priorityRank (js "run.sh") = 10 := by decide
    omega

/-- Witness for the amended C7: a concrete input order of the example
sorts as claimed, and a keyword-free no-extension candidate is
outranked by `run.sh`. -/
theorem c7_witness :
    prioritizeExecutables [js "run.sh", js "foo.txt", js "start.sh"] =
      [js "start.sh", js "run.sh", js "foo.txt"] ∧
      priorityRank (js "run.sh") > priorityRank (js "data") := by
  refine ⟨c7_amended_priority_order.2.1 [js "run.sh", js "foo.txt", js "start.sh"] (by simp),
    c7_amended_priority_order.2.2.2 (js "data") (by decide) (by decide) (by decide)
      (by decide) (by decide)⟩

/-! ## Launch path characterization -/

/-- Reduction of `commitPhase` once resolution has succeeded. -/
theorem commitPhase_eq (fs : FSModel) (w : Bool) (game : LibraryGame)
    (running : List Nat) (spawns : List JStr) (ip exe : JStr) (chm : List JStr)
    (hfind : findExecutable fs w game = .ok (exe, chm))
    (hip : game.installPath = some ip) :
    commitPhase fs w game running spawns =
      (match validateExecutablePath fs exe ip with
       | .error v => (.error (.security v), running, spawns)
       | .ok _ => (.ok (), insertId running game.id, spawns ++ [exe])) := by
  unfold commitPhase
  rw [hfind, hip]

/-- When the checks pass, resolution succeeds and validation accepts,
`launchGame` reaches the spawn call, registers the id and returns
successfully — the `spawn` call hands back a handle without waiting
for the OS, so this holds whether or not the OS will actually manage
to create the process. -/
theorem launchGame_commit (fs : FSModel) (w : Bool) (running : List Nat)
    (game : LibraryGame) (ip exe : JStr) (chm : List JStr)
    (hinst : game.installed = true) (hip : game.installPath = some ip) (hipne : ip ≠ [])
    (hrun : running.contains game.id = false)
    (hfind : findExecutable fs w game = .ok (exe, chm))
    (hval : validateExecutablePath fs exe ip = .ok ()) :
    launchGame fs w running game = ⟨.ok (), insertId running game.id, [exe]⟩ := by
  have hrun2 : game.id ∉ running := by simpa using hrun
  have hcp : checkPhase running game = none := by
    unfold checkPhase
    rw [hip]
    simp [hinst, jsFalsyOpt, hipne, hrun2]
  unfold launchGame
  rw [hcp, commitPhase_eq fs w game running [] ip exe chm hfind hip, hval]
  rfl

/-- Every spawn issued by `launchGame` comes from a successful
resolution that also passed the validator against the game's install
path. -/
theorem launchGame_spawns_validated (fs : FSModel) (w : Bool) (running : List Nat)
    (game : LibraryGame) :
    ∀ exe ∈ (launchGame fs w running game).spawns,
      ∃ ip chm, game.installPath = some ip ∧
        findExecutable fs w game = .ok (exe, chm) ∧
        validateExecutablePath fs exe ip = .ok () := by
  intro exe hmem
  unfold launchGame at hmem
  cases hcp : checkPhase running game with
  | some e =>
    rw [hcp] at hmem
    simp at hmem
  | none =>
    rw [hcp] at hmem
    cases hfind : findExecutable fs w game with
    | error e =>
      unfold commitPhase at hmem
      rw [hfind] at hmem
      simp at hmem
    | ok pr =>
      obtain ⟨exe0, chm0⟩ := pr
      cases hip : game.installPath with
      | none =>
        unfold commitPhase at hmem
        rw [hfind, hip] at hmem
        simp at hmem
      | some ip =>
        rw [commitPhase_eq fs w game running [] ip exe0 chm0 hfind hip] at hmem
        cases hval : validateExecutablePath fs exe0 ip with
        | error v =>
          rw [hval] at hmem
          simp at hmem
        | ok u =>
          cases u
          rw [hval] at hmem
          simp only [List.nil_append] at hmem
          have he : exe = exe0 := by simpa using hmem
          subst he
          exact ⟨ip, chm0, rfl, rfl, hval⟩

/-! ## Claim C5 -/

/-- Counterexample for C5: on a fixture whose OS cannot create the
process (`spawnOk` is false everywhere), `launchGame` still returns
successfully — not with `spawnFailed` — and the game id IS tracked
when the call returns, because `spawn` hands back a handle before the
OS reports anything and line 43 registers the entry unconditionally
after validation.  This refutes both halves of the claim as stated. -/
theorem c5_counterexample :
    fsNoSpawn.spawnOk (js "/g/run.sh") = false ∧
    (launchGame fsNoSpawn false [] gameA).outcome = .ok () ∧
    (launchGame fsNoSpawn false [] gameA).outcome ≠ .error .spawnFailed ∧
    (launchGame fsNoSpawn false [] gameA).running.contains gameA.id = true := by
  refine ⟨by decide, by decide, by decide, by decide⟩

/-- C5 (amended): when the executable resolves and validates but the
OS cannot create the process, `launchGame` itself still registers the
game id and returns successfully — `spawn` returns a `ChildProcess`
handle without waiting for the OS, so no `SpawnFailed` error reaches
the caller; the creation failure arrives afterwards through the
asynchronous `'error'` event, whose listener removes the tracked
entry, idempotently — so the id does not REMAIN tracked once the
error event has fired, but it is tracked at the moment the call
returns. -/
theorem c5_amended_async_spawn_failure (fs : FSModel) (w : Bool) (running : List Nat)
    (game : LibraryGame) (ip exe : JStr) (chm : List JStr)
    (hinst : game.installed = true) (hip : game.installPath = some ip) (hipne : ip ≠ [])
    (hrun : running.contains game.id = false)
    (hfind : findExecutable fs w game = .ok (exe, chm))
    (hval : validateExecutablePath fs exe ip = .ok ())
    (_hspawn : fs.spawnOk exe = false) :
    launchGame fs w running game = ⟨.ok (), insertId running game.id, [exe]⟩ ∧
    (launchGame fs w running game).running.contains game.id = true ∧
    errorEvent (launchGame fs w running game).running game.id = running ∧
    (errorEvent (launchGame fs w running game).running game.id).contains game.id = false ∧
    errorEvent running game.id = running := by
  have hrun2 : game.id ∉ running := by simpa using hrun
  have hc := launchGame_commit fs w running game ip exe chm hinst hip hipne hrun hfind hval
  have hins : insertId running game.id = running ++ [game.id] := by
    unfold insertId
    rw [if_neg (by rw [hrun]; decide)]
  refine ⟨hc, ?_, ?_, ?_, ?_⟩
  · rw [hc]
    simp [hins]
  · rw [hc]
    show errorEvent (insertId running game.id) game.id = running
    unfold errorEvent
    rw [hins, List.erase_append_right _ hrun2, List.erase_cons_head, List.append_nil]
  · rw [hc]
    show (errorEvent (insertId running game.id) game.id).contains game.id = false
    unfold errorEvent
    rw [hins, List.erase_append_right _ hrun2, List.erase_cons_head, List.append_nil]
    exact hrun
  · unfold errorEvent
    rw [List.erase_of_not_mem hrun2]

/-- Witness for the amended C5: on the concrete fixture whose OS
cannot create the process, the call registers the id and returns
successfully, and the subsequent error event empties the table. -/
theorem c5_witness :
    launchGame fsNoSpawn false [] gameA = ⟨.ok (), [1], [js "/g/run.sh"]⟩ ∧
    (launchGame fsNoSpawn false [] gameA).running.contains gameA.id = true ∧
    errorEvent (launchGame fsNoSpawn false [] gameA).running gameA.id = [] ∧
    (errorEvent (launchGame fsNoSpawn false [] gameA).running gameA.id).contains
      gameA.id = false ∧
    errorEvent [] gameA.id = [] := by
  have h := c5_amended_async_spawn_failure fsNoSpawn false [] gameA (js "/g")
    (js "/g/run.sh") [js "/g/run.sh"] rfl rfl (by decide) (by decide) (by decide)
    (by decide) (by decide)
  exact h

/-! ## Claim C1 -/

/-- C1: under a well-formed filesystem (directory listings return
plain entry names) and an absolute install path, every path
`launchGame` ever hands to `spawn` has passed `validateExecutablePath`
and is a (reflexive) descendant of the game's install path; moreover,
whenever the resolved candidate's normalization falls outside the
normalized install path, the launch fails with the `SecurityViolation`
escape error before any spawn, and nothing is spawned. -/
theorem c1_spawn_only_validated (fs : FSModel) (w : Bool) (running : List Nat)
    (game : LibraryGame) (ip : JStr) (hip : game.installPath = some ip)
    (habs : isAbsolutePath ip = true) (hwf : readdirWF fs) :
    (∀ exe ∈ (launchGame fs w running game).spawns,
      validateExecutablePath fs exe ip = .ok () ∧ isDescendantOf exe ip = true) ∧
    (∀ exe chm, findExecutable fs w game = .ok (exe, chm) →
      strStartsWith (normalizePath exe) (normalizePath ip) = false →
      game.installed = true → running.contains game.id = false →
      (launchGame fs w running game).outcome = .error (.security .escapesInstall) ∧
        (launchGame fs w running game).spawns = []) := by
  constructor
  · intro exe hmem
    obtain ⟨ip2, chm, hip2, hfind, hval⟩ :=
      launchGame_spawns_validated fs w running game exe hmem
    have hipe : ip2 = ip := by
      rw [hip] at hip2
      exact (Option.some.inj hip2).symm
    subst hipe
    refine ⟨hval, ?_⟩
    rcases findExec_desc fs w game ip2 exe chm hip habs hwf hfind with hd | hd
    · exact hd
    · exact absurd (validate_ok_startsWith fs exe ip2 hval) (by simp [hd])
  · intro exe chm hfind hout hinst hrun
    have hipne : ip ≠ [] := by
      intro h
      subst h
      exact absurd habs (by decide)
    have hrun2 : game.id ∉ running := by simpa using hrun
    have hcp : checkPhase running game = none := by
      unfold checkPhase
      rw [hip]
      simp [hinst, jsFalsyOpt, hipne, hrun2]
    have hval : validateExecutablePath fs exe ip = .error .escapesInstall :=
      validate_escape fs exe ip hout
    unfold launchGame
    rw [hcp, commitPhase_eq fs w game running [] ip exe chm hfind hip, hval]
    exact ⟨rfl, rfl⟩

/-- Witness for C1: on the concrete fixture the single spawned path
`/g/run.sh` is validated and inside `/g`; and on the `".."`-hint
fixture the resolver returns the parent directory `/games`, which the
validator rejects as escaping, so nothing spawns. -/
theorem c1_witness :
    (validateExecutablePath fsA (js "/g/run.sh") (js "/g") = .ok () ∧
      isDescendantOf (js "/g/run.sh") (js "/g") = true) ∧
    ((launchGame fsB false [] gameB).outcome = .error (.security .escapesInstall) ∧
      (launchGame fsB false [] gameB).spawns = []) :=
  ⟨(c1_spawn_only_validated fsA false [] gameA (js "/g") rfl (by decide) fsA_wf).1
      (js "/g/run.sh") (by decide),
    (c1_spawn_only_validated fsB false [] gameB (js "/games/foo") rfl (by decide) fsB_wf).2
      (js "/games") [js "/games"] (by decide) (by decide) rfl rfl⟩

/-! ## Claim C2 -/

/-- Running one call's two segments back to back reproduces the
sequential `launchGame`, tying the interleaving model to the
sequential function. -/
theorem raceRun_sequential (fs : FSModel) (w : Bool) (game : LibraryGame)
    (running : List Nat) :
    raceRun fs w game [false, false] (raceInit running) =
      ⟨(launchGame fs w running game).running, (launchGame fs w running game).spawns,
        .done (launchGame fs w running game).outcome, .ready⟩ := by
  unfold raceRun raceInit launchGame
  cases hcp : checkPhase running game with
  | some e =>
    simp [raceStep, taskStep, hcp]
  | none =>
    cases hcm : commitPhase fs w game running [] with
    | mk r rest =>
      obtain ⟨rn, sp⟩ := rest
      simp [raceStep, taskStep, hcp, hcm]

/-- C2 (code behaviour at the failing schedule): the not-running check
and the registration are separated by the awaits inside resolution, so
two interleaved `launchGame` calls for the same game may both pass the
check before either registers: under the alternating schedule both
calls succeed and TWO processes are spawned, refuting "exactly one OS
process is spawned and the other call fails with AlreadyRunning".
Only when the second call's check runs after the first call's
registration does the second fail with `alreadyRunning` and exactly
one spawn occur. -/
theorem c2_race_double_spawn :
    ((raceRun fsA false gameA [false, true, false, true] (raceInit [])).spawns =
        [js "/g/run.sh", js "/g/run.sh"] ∧
      (raceRun fsA false gameA [false, true, false, true] (raceInit [])).st1 =
        .done (.ok ()) ∧
      (raceRun fsA false gameA [false, true, false, true] (raceInit [])).st2 =
        .done (.ok ())) ∧
    ((raceRun fsA false gameA [false, false, true, true] (raceInit [])).spawns =
        [js "/g/run.sh"] ∧
      (raceRun fsA false gameA [false, false, true, true] (raceInit [])).st2 =
        .done (.error .alreadyRunning)) := by
  refine ⟨⟨by decide, by decide, by decide⟩, by decide, by decide⟩
